import Mathlib

/-!
# Verification of the shop domain model and analytics core

A shallow embedding, in Lean 4, of the core of the `models.py` / `analysis.py`
shop system: the domain entities (`Customer`, `Product`, `Order`, `OrderItem`),
the two order-sorting algorithms, the sales aggregation operations and the
customer relationship graph builders.  Python floats (prices, money) are
modelled as exact rationals (`ℚ`), Python ints as `Int`/`Nat`, raising
`ValueError` as returning `Except.error`, and the in-place mutations of
`Product.stock` / `Order.items` as explicit state passing.
-/

set_option maxHeartbeats 1000000

namespace Shop

/-- A customer (`models.Customer`).  The email/phone validation performed by
`Person.__init__` lives in `Customer.mk?` below; the append-only `orders`
list owned by a customer plays no role in the verified operations and is
kept outside the record (entity collections are passed to the analytics
explicitly, exactly as `DataAnalyzer` receives them). -/
structure Customer where
  customer_id : Int
  name : String
  email : String
  phone : String
  address : String
  city : String
deriving DecidableEq, Inhabited

/-- A catalog product (`models.Product`). -/
structure Product where
  product_id : Int
  name : String
  price : ℚ
  category : String
  description : String
  stock : Int
deriving DecidableEq, Inhabited

/-- `Product.__init__`: rejects a negative price or a negative initial stock,
otherwise builds the product. -/
def Product.mk? (product_id : Int) (name : String) (price : ℚ)
    (category : String) (description : String) (stock : Int) :
    Except String Product :=
  if price < 0 then .error "negative price"
  else if stock < 0 then .error "negative stock"
  else .ok ⟨product_id, name, price, category, description, stock⟩

/-- `Product.update_stock`: computes `new_stock = stock + quantity`, raises
(returns `.error`) when it would be negative, otherwise stores it and
returns success. -/
def Product.update_stock (p : Product) (quantity : Int) : Except String Product :=
  let new_stock := p.stock + quantity
  if new_stock < 0 then .error "insufficient stock"
  else .ok { p with stock := new_stock }

/-- `Product.is_available`: pure predicate `stock >= quantity`. -/
def Product.is_available (p : Product) (quantity : Int) : Bool :=
  decide (p.stock ≥ quantity)

/-- One `update_stock` call as a state transition: a raising call leaves the
product exactly as it was (the Python exception propagates before the
assignment to `self.stock`). -/
def Product.applyUpdate (p : Product) (delta : Int) : Product :=
  match p.update_stock delta with
  | .ok q => q
  | .error _ => p

/-- A finite sequence of `update_stock` calls on a product. -/
def Product.runUpdates (p : Product) (deltas : List Int) : Product :=
  deltas.foldl Product.applyUpdate p

theorem Product.stock_nonneg_applyUpdate (p : Product) (d : Int)
    (h : 0 ≤ p.stock) : 0 ≤ (p.applyUpdate d).stock := by
  unfold Product.applyUpdate Product.update_stock
  by_cases hlt : p.stock + d < 0
  · simp [hlt, h]
  · simp [hlt]
    omega

theorem Product.stock_nonneg_runUpdates (deltas : List Int) (p : Product)
    (h : 0 ≤ p.stock) : 0 ≤ (p.runUpdates deltas).stock := by
  induction deltas generalizing p with
  | nil => exact h
  | cons d ds ih =>
      exact ih (p.applyUpdate d) (p.stock_nonneg_applyUpdate d h)

theorem Product.mk?_stock_nonneg {pid : Int} {nm : String} {price : ℚ}
    {cat desc : String} {stock : Int} {p : Product}
    (hp : Product.mk? pid nm price cat desc stock = .ok p) : 0 ≤ p.stock := by
  unfold Product.mk? at hp
  by_cases h1 : price < 0
  · simp [h1] at hp
  · by_cases h2 : stock < 0
    · simp [h1, h2] at hp
    · simp [h1, h2] at hp
      subst hp
      show 0 ≤ stock
      omega

/-- C1: for every `Product` constructed with valid arguments and every finite
sequence of `update_stock(delta)` calls, `stock ≥ 0` holds after every call;
a call with `stock + delta < 0` raises the insufficient-stock error and
leaves `stock` exactly as it was before that call, and every other call sets
`stock` to `stock + delta` and returns success. -/
theorem c1_stock_invariant (pid : Int) (nm : String) (price : ℚ)
    (cat desc : String) (stock : Int) (p : Product)
    (hp : Product.mk? pid nm price cat desc stock = .ok p)
    (deltas : List Int) :
    (∀ n : Nat, 0 ≤ (p.runUpdates (deltas.take n)).stock) ∧
    (∀ q : Product, ∀ d : Int, 0 ≤ q.stock →
      (q.stock + d < 0 →
        q.update_stock d = .error "insufficient stock" ∧ q.applyUpdate d = q) ∧
      (0 ≤ q.stock + d →
        q.update_stock d = .ok { q with stock := q.stock + d })) := by
  constructor
  · intro n
    exact Product.stock_nonneg_runUpdates (deltas.take n) p
      (Product.mk?_stock_nonneg hp)
  · intro q d _
    constructor
    · intro hneg
      have hs : q.update_stock d = .error "insufficient stock" := by
        unfold Product.update_stock
        simp [hneg]
      refine ⟨hs, ?_⟩
      unfold Product.applyUpdate
      rw [hs]
    · intro hpos
      unfold Product.update_stock
      have : ¬ (q.stock + d < 0) := by omega
      simp [this]

/-- Witness for C1 at a concrete product (price 5, stock 3) and the concrete
update sequence `[-2, 4, -6]` (the last call is the raising one). -/
theorem c1_stock_invariant_witness :
    Product.mk? 1 "p" 5 "cat" "desc" 3 =
      .ok (⟨1, "p", 5, "cat", "desc", 3⟩ : Product) ∧
    ((∀ n : Nat,
        0 ≤ ((⟨1, "p", 5, "cat", "desc", 3⟩ : Product).runUpdates
          (([-2, 4, -6] : List Int).take n)).stock) ∧
      (∀ q : Product, ∀ d : Int, 0 ≤ q.stock →
        (q.stock + d < 0 →
          q.update_stock d = .error "insufficient stock" ∧ q.applyUpdate d = q) ∧
        (0 ≤ q.stock + d →
          q.update_stock d = .ok { q with stock := q.stock + d }))) :=
  ⟨by rfl,
    c1_stock_invariant 1 "p" 5 "cat" "desc" 3 ⟨1, "p", 5, "cat", "desc", 3⟩
      (by rfl) [-2, 4, -6]⟩

/-- A timestamp, modelling `datetime.datetime` to minute precision; Python
compares datetimes lexicographically by components. -/
structure DateTime where
  year : Nat
  month : Nat
  day : Nat
  hour : Nat
  minute : Nat
deriving Inhabited

/-- The componentwise comparison key of a timestamp. -/
def DateTime.key (d : DateTime) : Nat ×ₗ Nat ×ₗ Nat ×ₗ Nat ×ₗ Nat :=
  toLex (d.year, toLex (d.month, toLex (d.day, toLex (d.hour, d.minute))))

/-- Python compares `datetime` values lexicographically by components. -/
instance : LinearOrder DateTime :=
  LinearOrder.lift' DateTime.key (by
    intro a b h
    cases a; cases b
    simpa [DateTime.key, Prod.ext_iff] using h)

/-- A line within an order (`models.OrderItem`). -/
structure OrderItem where
  product : Product
  quantity : Int
  price_at_time : ℚ
deriving DecidableEq, Inhabited

/-- `OrderItem.__init__`: rejects a non-positive quantity; the price snapshot
defaults to the product's current price when not supplied. -/
def OrderItem.mk? (product : Product) (quantity : Int) (price_at_time : Option ℚ) :
    Except String OrderItem :=
  if quantity ≤ 0 then .error "quantity must be positive"
  else .ok ⟨product, quantity, price_at_time.getD product.price⟩

/-- `OrderItem.get_total`: the line total `price_at_time * quantity`. -/
def OrderItem.get_total (it : OrderItem) : ℚ :=
  it.price_at_time * (it.quantity : ℚ)

/-- An order (`models.Order`). -/
structure Order where
  order_id : Int
  customer : Customer
  order_date : DateTime
  items : List OrderItem
  status : String
deriving DecidableEq, Inhabited

/-- `Order.__init__`: starts with no items and the sentinel status. -/
def Order.create (order_id : Int) (customer : Customer) (order_date : DateTime) :
    Order :=
  ⟨order_id, customer, order_date, [], "Новый"⟩

/-- The `for item in self.items` loop of `Order.add_item`: finds the first
line with the given product id and adds `q` to its quantity in place;
`none` when no line matches. -/
def bumpFirst (pid : Int) (q : Int) : List OrderItem → Option (List OrderItem)
  | [] => none
  | it :: rest =>
    if it.product.product_id = pid then
      some ({ it with quantity := it.quantity + q } :: rest)
    else
      (bumpFirst pid q rest).map (it :: ·)

/-- `Order.add_item`: raises when the product is not available in the
requested quantity; otherwise merges into the first existing line for the
same product id, or else appends a freshly constructed `OrderItem` (whose
constructor validates the quantity). -/
def Order.add_item (o : Order) (product : Product) (quantity : Int) :
    Except String Order :=
  if ¬ product.is_available quantity then .error "product unavailable"
  else
    match bumpFirst product.product_id quantity o.items with
    | some items' => .ok { o with items := items' }
    | none =>
      match OrderItem.mk? product quantity none with
      | .ok it => .ok { o with items := o.items ++ [it] }
      | .error e => .error e

/-- `Order.get_total`: sum of the line totals. -/
def Order.get_total (o : Order) : ℚ :=
  (o.items.map OrderItem.get_total).sum

/-- `Order.get_items_count`: sum of the line quantities. -/
def Order.get_items_count (o : Order) : Int :=
  (o.items.map OrderItem.quantity).sum

theorem bumpFirst_found (pid q : Int) (pre : List OrderItem) (it : OrderItem)
    (post : List OrderItem) (hit : it.product.product_id = pid)
    (hpre : ∀ j ∈ pre, j.product.product_id ≠ pid) :
    bumpFirst pid q (pre ++ it :: post) =
      some (pre ++ { it with quantity := it.quantity + q } :: post) := by
  induction pre with
  | nil => simp [bumpFirst, hit]
  | cons j pre ih =>
      have hj : j.product.product_id ≠ pid := hpre j (by simp)
      simp only [List.cons_append, bumpFirst, if_neg hj]
      rw [List.append_eq, ih (fun x hx => hpre x (by simp [hx]))]
      rfl

theorem bumpFirst_notFound (pid q : Int) (l : List OrderItem)
    (h : ∀ j ∈ l, j.product.product_id ≠ pid) :
    bumpFirst pid q l = none := by
  induction l with
  | nil => rfl
  | cons j rest ih =>
      have hj : j.product.product_id ≠ pid := h j (by simp)
      simp only [bumpFirst, if_neg hj]
      rw [ih (fun x hx => h x (by simp [hx]))]
      rfl

/-- C2: when the order already holds a (unique) line for the product's id and
the product is available in the requested quantity, `add_item` succeeds,
leaves that single line's price snapshot untouched and adds the quantity to
it, touching no other line; when no line matches, it appends one fresh line
with the given quantity and a `price_at_time` snapshot taken from
`product.price`. -/
theorem c2_add_item_merges (o : Order) (p : Product) (q : Int) :
    (∀ (pre : List OrderItem) (it : OrderItem) (post : List OrderItem),
      o.items = pre ++ it :: post →
      it.product.product_id = p.product_id →
      (∀ j ∈ pre, j.product.product_id ≠ p.product_id) →
      (∀ j ∈ post, j.product.product_id ≠ p.product_id) →
      p.is_available q = true →
      o.add_item p q =
        .ok { o with items :=
          pre ++ { it with quantity := it.quantity + q } :: post } ∧
      (pre ++ { it with quantity := it.quantity + q } :: post).filter
          (fun j => decide (j.product.product_id = p.product_id)) =
        [{ it with quantity := it.quantity + q }]) ∧
    ((∀ j ∈ o.items, j.product.product_id ≠ p.product_id) →
      p.is_available q = true → 0 < q →
      o.add_item p q = .ok { o with items := o.items ++ [⟨p, q, p.price⟩] }) := by
  constructor
  · intro pre it post hsplit hit hpre hpost havail
    constructor
    · have hb := bumpFirst_found p.product_id q pre it post hit hpre
      unfold Order.add_item
      rw [havail, hsplit, hb]
      simp
    · rw [List.filter_append]
      have h1 : pre.filter (fun j => decide (j.product.product_id = p.product_id)) = [] := by
        rw [List.filter_eq_nil_iff]
        intro j hj
        simpa using hpre j hj
      have h2 : post.filter (fun j => decide (j.product.product_id = p.product_id)) = [] := by
        rw [List.filter_eq_nil_iff]
        intro j hj
        simpa using hpost j hj
      simp [h1, h2, hit]
  · intro hmiss havail hq
    unfold Order.add_item
    rw [havail, bumpFirst_notFound p.product_id q o.items hmiss]
    unfold OrderItem.mk?
    have hq' : ¬ (q ≤ 0) := by omega
    simp [hq']

/-- Demo entities used by concrete witnesses below. -/
def demoCustomer : Customer :=
  ⟨1, "Alice", "alice@example.com", "+79991234567", "Main st. 1", "Moscow"⟩

def demoProduct : Product := ⟨1, "Laptop", 100, "Tech", "A laptop", 10⟩

def demoOrderEmpty : Order := Order.create 1 demoCustomer ⟨2024, 5, 1, 12, 0⟩

/-- Witness for C2: on an order already holding 2 units of the demo product,
adding 3 more yields exactly one line with quantity 5 and the original price
snapshot; on the empty order, adding 2 appends one fresh line at the current
price. -/
theorem c2_add_item_merges_witness :
    ({ demoOrderEmpty with items := [⟨demoProduct, 2, 100⟩] } : Order).items =
        [] ++ (⟨demoProduct, 2, 100⟩ : OrderItem) :: [] ∧
    ({ demoOrderEmpty with
        items := [] ++ (⟨demoProduct, 2, 100⟩ : OrderItem) :: [] } : Order).add_item
        demoProduct 3 =
      .ok { demoOrderEmpty with items := [] ++ (⟨demoProduct, 5, 100⟩ : OrderItem) :: [] } ∧
    demoOrderEmpty.add_item demoProduct 2 =
      .ok { demoOrderEmpty with items := demoOrderEmpty.items ++ [⟨demoProduct, 2, 100⟩] } := by
  refine ⟨rfl, ?_, ?_⟩
  · have h := (c2_add_item_merges
      { demoOrderEmpty with items := [] ++ (⟨demoProduct, 2, 100⟩ : OrderItem) :: [] }
      demoProduct 3).1 [] ⟨demoProduct, 2, 100⟩ [] rfl rfl
      (by intro j hj; simp at hj) (by intro j hj; simp at hj) (by rfl)
    exact h.1
  · exact (c2_add_item_merges demoOrderEmpty demoProduct 2).2
      (by intro j hj; simp [demoOrderEmpty, Order.create] at hj) (by rfl) (by omega)

/-- C3 (code evaluated at the failing input): the claim says every `add_item`
call with a non-positive quantity raises the validation error and leaves the
order unchanged, but the merge path of `Order.add_item` adds the quantity to
an existing line without any validation: merging `-5` into a line holding 2
units succeeds and leaves the line with quantity `-3`. -/
theorem c3_add_item_merge_skips_validation :
    ({ demoOrderEmpty with items := [⟨demoProduct, 2, 100⟩] } : Order).add_item
        demoProduct (-5) =
      .ok { demoOrderEmpty with items := [⟨demoProduct, -3, 100⟩] } := by rfl

/-! ## Email and phone validation (`Person._validate_email` / `_validate_phone`)

The email regex is `^[a-zA-Z0-9._%+-]+@[a-zA-Z0-9.-]+\.[a-zA-Z]{2,}$`.  Since
neither character class contains `@`, a matching string splits uniquely at
its first `@`; and since the final `[a-zA-Z]{2,}` group contains no dot, the
`\.` of a successful match is necessarily the last dot of the domain part.
The executable matchers below implement exactly that decomposition. -/

/-- The class `[a-zA-Z0-9._%+-]` of the local part. -/
def emailLocalChar (c : Char) : Bool :=
  c.isAlpha || c.isDigit || c = '.' || c = '_' || c = '%' || c = '+' || c = '-'

/-- The class `[a-zA-Z0-9.-]` of the domain part. -/
def emailDomainChar (c : Char) : Bool :=
  c.isAlpha || c.isDigit || c = '.' || c = '-'

/-- Matcher for the domain-side pattern `[a-zA-Z0-9.-]+\.[a-zA-Z]{2,}$`:
every character is in the domain class, there is a dot, the segment after
the last dot is an at-least-two-letter TLD, and at least one character
precedes that dot. -/
def emailDomainMatches (ds : List Char) : Bool :=
  ds.all emailDomainChar && decide ('.' ∈ ds) &&
  (let tld := (ds.reverse.takeWhile (fun c => c ≠ '.')).reverse
   decide (2 ≤ tld.length) && tld.all (fun c => c.isAlpha) &&
   decide (tld.length + 1 < ds.length))

/-- `Person._validate_email`'s pattern check: the part before the first `@`
is the candidate local part, the part after it the candidate domain. -/
def emailMatches (email : String) : Bool :=
  match email.toList.dropWhile (fun c => c ≠ '@') with
  | '@' :: domain =>
      !(email.toList.takeWhile (fun c => c ≠ '@')).isEmpty &&
        (email.toList.takeWhile (fun c => c ≠ '@')).all emailLocalChar &&
        emailDomainMatches domain
  | _ => false

/-- The Unicode codepoint ranges matched by Python `re`'s `\d` on `str`
patterns: the decimal-digit category `Nd` of the interpreter's Unicode
database, not only ASCII `0`–`9`. -/
def pyDigitRanges : List (Nat × Nat) :=
  [(48, 57), (1632, 1641), (1776, 1785), (1984, 1993), (2406, 2415),
   (2534, 2543), (2662, 2671), (2790, 2799), (2918, 2927), (3046, 3055),
   (3174, 3183), (3302, 3311), (3430, 3439), (3558, 3567), (3664, 3673),
   (3792, 3801), (3872, 3881), (4160, 4169), (4240, 4249), (6112, 6121),
   (6160, 6169), (6470, 6479), (6608, 6617), (6784, 6793), (6800, 6809),
   (6992, 7001), (7088, 7097), (7232, 7241), (7248, 7257), (42528, 42537),
   (43216, 43225), (43264, 43273), (43472, 43481), (43504, 43513),
   (43600, 43609), (44016, 44025), (65296, 65305), (66720, 66729),
   (68912, 68921), (69734, 69743), (69872, 69881), (69942, 69951),
   (70096, 70105), (70384, 70393), (70736, 70745), (70864, 70873),
   (71248, 71257), (71360, 71369), (71472, 71481), (71904, 71913),
   (72016, 72025), (72784, 72793), (73040, 73049), (73120, 73129),
   (92768, 92777), (92864, 92873), (93008, 93017), (120782, 120831),
   (123200, 123209), (123632, 123641), (125264, 125273), (130032, 130041)]

/-- Python `re`'s `\d`: any Unicode decimal digit. -/
def isPyDigit (c : Char) : Bool :=
  pyDigitRanges.any fun r => decide (r.1 ≤ c.toNat) && decide (c.toNat ≤ r.2)

/-- The codepoints matched by Python `re`'s `\s` on `str` patterns (ASCII
whitespace plus the Unicode whitespace characters). -/
def pySpaceRanges : List (Nat × Nat) :=
  [(9, 13), (28, 32), (133, 133), (160, 160), (5760, 5760), (8192, 8202),
   (8232, 8233), (8239, 8239), (8287, 8287), (12288, 12288)]

/-- Python `re`'s `\s`: any Unicode whitespace character. -/
def isPySpace (c : Char) : Bool :=
  pySpaceRanges.any fun r => decide (r.1 ≤ c.toNat) && decide (c.toNat ≤ r.2)

/-- The class kept by `re.sub(r'[^\d+()]', '', phone)` (`\d` is Unicode). -/
def phoneKeepChar (c : Char) : Bool :=
  isPyDigit c || c = '+' || c = '(' || c = ')'

/-- The class `[\d\(\)\-\s]` of the phone body (`\d`, `\s` are Unicode). -/
def phoneBodyChar (c : Char) : Bool :=
  isPyDigit c || c = '(' || c = ')' || c = '-' || isPySpace c

/-- The body of `_validate_phone`'s pattern `^(\+7|8)[\d\(\)\-\s]{10,15}$`
matched against the whole stripped string: strip everything but `\d`, `+`,
`(`, `)`, then require `+7` or `8` followed by 10–15 body-class
characters reaching the end. -/
def phoneMatches (phone : String) : Bool :=
  match phone.toList.filter phoneKeepChar with
  | '+' :: '7' :: rest =>
      decide (10 ≤ rest.length) && decide (rest.length ≤ 15) &&
        rest.all phoneBodyChar
  | '8' :: rest =>
      decide (10 ≤ rest.length) && decide (rest.length ≤ 15) &&
        rest.all phoneBodyChar
  | _ => false

/-- `Person._validate_email`'s `re.match` with Python's `$` semantics:
outside multiline mode `$` matches at the very end of the string and also
just before a newline that ends the string, so the pattern body may consume
either the whole string or the whole string minus one final `'\n'`. -/
def emailMatchesPy (email : String) : Bool :=
  emailMatches email ||
    (match email.toList.getLast? with
     | some '\n' => emailMatches (String.mk email.toList.dropLast)
     | _ => false)

/-- `Person._validate_phone`'s `re.match` against the stripped string, with
the same `$` semantics.  The strip keeps only `\d`, `+`, `(`, `)`, so the
stripped string never ends in a newline (the second alternative is vacuous
for this pattern) and re-stripping an already-stripped string changes
nothing. -/
def phoneMatchesPy (phone : String) : Bool :=
  phoneMatches phone ||
    (match (phone.toList.filter phoneKeepChar).getLast? with
     | some '\n' =>
        phoneMatches (String.mk (phone.toList.filter phoneKeepChar).dropLast)
     | _ => false)

/-- `Customer.__init__` (via `Person.__init__`): validates email then phone,
storing the supplied strings unchanged (`_validate_phone` returns the
original `phone`, not the stripped copy). -/
def Customer.mk? (customer_id : Int) (name email phone address city : String) :
    Except String Customer :=
  if ¬ emailMatchesPy email then .error "invalid email"
  else if ¬ phoneMatchesPy phone then .error "invalid phone"
  else .ok ⟨customer_id, name, email, phone, address, city⟩

/-- The `local@domain.tld` shape, written declaratively from the spec's
words: some decomposition into a non-empty local part over the local class,
an `@`, a non-empty domain over the domain class, a dot and a TLD of at
least two letters. -/
def EmailShape (email : String) : Prop :=
  ∃ l d t : List Char,
    email.toList = l ++ '@' :: (d ++ '.' :: t) ∧
    l ≠ [] ∧ l.all emailLocalChar = true ∧
    d ≠ [] ∧ d.all emailDomainChar = true ∧
    2 ≤ t.length ∧ t.all (fun c => c.isAlpha) = true

/-- The recognized national phone pattern, written declaratively from the
spec's words: after discarding everything but digits and `+()`, the string
is `+7` or `8` followed by 10–15 characters of the digit/punctuation body
class. -/
def PhoneShape (phone : String) : Prop :=
  ∃ rest : List Char,
    (phone.toList.filter phoneKeepChar = '+' :: '7' :: rest ∨
      phone.toList.filter phoneKeepChar = '8' :: rest) ∧
    10 ≤ rest.length ∧ rest.length ≤ 15 ∧ rest.all phoneBodyChar = true

theorem takeWhile_append_of_all {α : Type} {p : α → Bool} (l : List α)
    (c0 : α) (r : List α) (hl : ∀ c ∈ l, p c = true) (hc : p c0 = false) :
    (l ++ c0 :: r).takeWhile p = l ∧ (l ++ c0 :: r).dropWhile p = c0 :: r := by
  induction l with
  | nil => simp [List.takeWhile, List.dropWhile, hc]
  | cons a as ih =>
      have ha : p a = true := hl a (by simp)
      have := ih (fun c hcmem => hl c (by simp [hcmem]))
      simp [List.takeWhile, List.dropWhile, ha, this.1, this.2]

theorem dropWhile_cons_of_exists {α : Type} {p : α → Bool} (l : List α)
    (h : ∃ x ∈ l, p x = false) :
    ∃ x r, l.dropWhile p = x :: r ∧ p x = false := by
  induction l with
  | nil => simp at h
  | cons a as ih =>
      by_cases ha : p a = true
      · obtain ⟨x, hx, hpx⟩ := h
        rcases List.mem_cons.1 hx with hxa | hxas
        · subst hxa; rw [ha] at hpx; cases hpx
        · obtain ⟨y, r, hdw, hpy⟩ := ih ⟨x, hxas, hpx⟩
          exact ⟨y, r, by simp [List.dropWhile, ha, hdw], hpy⟩
      · have ha' : p a = false := by
          cases hpa : p a
          · rfl
          · exact absurd hpa ha
        exact ⟨a, as, by simp [List.dropWhile, ha'], ha'⟩

theorem dropWhile_head_false {α : Type} {p : α → Bool} {l : List α} {x : α}
    {r : List α} (h : l.dropWhile p = x :: r) : p x = false := by
  induction l with
  | nil => simp [List.dropWhile] at h
  | cons a as ih =>
      by_cases ha : p a = true
      · rw [List.dropWhile_cons_of_pos ha] at h
        exact ih h
      · have ha' : p a = false := by
          cases hpa : p a
          · rfl
          · exact absurd hpa ha
        rw [List.dropWhile_cons_of_neg (by simp [ha'])] at h
        obtain ⟨hax, _⟩ := List.cons.inj h
        subst hax; exact ha'

theorem isAlpha_ne_dot {c : Char} (h : c.isAlpha = true) : c ≠ '.' := by
  intro he
  subst he
  exact absurd h (by decide)

theorem emailDomainMatches_iff (ds : List Char) :
    emailDomainMatches ds = true ↔
      ∃ d t : List Char, ds = d ++ '.' :: t ∧ d ≠ [] ∧
        d.all emailDomainChar = true ∧ 2 ≤ t.length ∧
        t.all (fun c => c.isAlpha) = true := by
  constructor
  · intro h
    unfold emailDomainMatches at h
    simp only [Bool.and_eq_true, decide_eq_true_eq] at h
    obtain ⟨⟨hall, hdot⟩, ⟨hlen2, halpha⟩, hlt⟩ := h
    have hdotrev : ∃ x ∈ ds.reverse, (fun c : Char => decide (c ≠ '.')) x = false :=
      ⟨'.', List.mem_reverse.2 hdot, by simp⟩
    obtain ⟨x, dRev, hdw, hpx⟩ :=
      dropWhile_cons_of_exists (p := fun c : Char => decide (c ≠ '.')) ds.reverse hdotrev
    have hxdot : x = '.' := by simpa using hpx
    subst hxdot
    have hsplitRev : ds.reverse =
        ds.reverse.takeWhile (fun c : Char => decide (c ≠ '.')) ++ '.' :: dRev := by
      conv_lhs => rw [← List.takeWhile_append_dropWhile
        (p := fun c : Char => decide (c ≠ '.')) (l := ds.reverse)]
      rw [hdw]
    have hds : ds = dRev.reverse ++ '.' ::
        (ds.reverse.takeWhile (fun c : Char => decide (c ≠ '.'))).reverse := by
      have := congrArg List.reverse hsplitRev
      simpa [List.reverse_append] using this
    refine ⟨dRev.reverse, (ds.reverse.takeWhile (fun c : Char => decide (c ≠ '.'))).reverse,
      hds, ?_, ?_, hlen2, halpha⟩
    · intro hnil
      have hlen : ds.length =
          ((ds.reverse.takeWhile (fun c : Char => decide (c ≠ '.'))).reverse).length
            + 1 := by
        conv_lhs => rw [hds, hnil]
        simp
      omega
    · rw [List.all_eq_true] at hall ⊢
      intro c hc
      exact hall c (by rw [hds]; simp [hc])
  · rintro ⟨d, t, hds, hdne, hdall, htlen, htalpha⟩
    unfold emailDomainMatches
    simp only [Bool.and_eq_true, decide_eq_true_eq]
    have htld : ds.reverse.takeWhile (fun c : Char => decide (c ≠ '.')) = t.reverse := by
      rw [hds, List.reverse_append, List.reverse_cons, List.append_assoc]
      have hall' : ∀ c ∈ t.reverse, (fun c : Char => decide (c ≠ '.')) c = true := by
        intro c hc
        have := (List.all_eq_true.1 htalpha) c (List.mem_reverse.1 hc)
        simp [isAlpha_ne_dot this]
      exact (takeWhile_append_of_all t.reverse '.' d.reverse hall' (by simp)).1
    refine ⟨⟨?_, ?_⟩, ⟨?_, ?_⟩, ?_⟩
    · rw [List.all_eq_true] at hdall htalpha ⊢
      intro c hc
      rw [hds] at hc
      rcases List.mem_append.1 hc with hcd | hct
      · exact hdall c hcd
      · rcases List.mem_cons.1 hct with hcdot | hct'
        · subst hcdot; decide
        · have := htalpha c hct'
          simp [emailDomainChar, this]
    · rw [hds]; simp
    · rw [htld]; simpa using htlen
    · rw [htld]; simpa using htalpha
    · rw [htld, hds]
      simp only [List.length_reverse, List.length_append, List.length_cons]
      cases d with
      | nil => exact absurd rfl hdne
      | cons a as => simp

theorem emailLocalChar_at : emailLocalChar '@' = false := by decide

theorem emailMatches_iff (email : String) :
    emailMatches email = true ↔ EmailShape email := by
  constructor
  · intro h
    unfold emailMatches at h
    rcases hdw : email.toList.dropWhile (fun c : Char => decide (c ≠ '@')) with
      _ | ⟨c, domain⟩
    · rw [hdw] at h; cases h
    · have hc : c = '@' := by
        have := dropWhile_head_false hdw
        simpa using this
      subst hc
      rw [hdw] at h
      simp only [Bool.and_eq_true, Bool.not_eq_true'] at h
      obtain ⟨⟨hne, hlocal⟩, hdom⟩ := h
      obtain ⟨d, t, hdds, hdne, hdall, htlen, htalpha⟩ :=
        (emailDomainMatches_iff domain).1 hdom
      refine ⟨email.toList.takeWhile (fun c : Char => decide (c ≠ '@')), d, t, ?_, ?_,
        hlocal, hdne, hdall, htlen, htalpha⟩
      · conv_lhs => rw [← List.takeWhile_append_dropWhile
          (p := fun c : Char => decide (c ≠ '@')) (l := email.toList)]
        rw [hdw, hdds]
      · intro hnil
        rw [hnil] at hne
        simp at hne
  · rintro ⟨l, d, t, hsplit, hlne, hlall, hdne, hdall, htlen, htalpha⟩
    unfold emailMatches
    have hlp : ∀ c ∈ l, (fun c : Char => decide (c ≠ '@')) c = true := by
      intro c hc
      have := (List.all_eq_true.1 hlall) c hc
      have hne : c ≠ '@' := by
        intro he; subst he
        rw [emailLocalChar_at] at this; cases this
      simp [hne]
    have htw := takeWhile_append_of_all l '@' (d ++ '.' :: t) hlp (by simp)
    rw [hsplit, htw.1, htw.2]
    simp only [Bool.and_eq_true, Bool.not_eq_true']
    refine ⟨⟨?_, hlall⟩, ?_⟩
    · cases l with
      | nil => exact absurd rfl hlne
      | cons a as => simp
    · exact (emailDomainMatches_iff (d ++ '.' :: t)).2
        ⟨d, t, rfl, hdne, hdall, htlen, htalpha⟩

theorem phoneMatches_iff (phone : String) :
    phoneMatches phone = true ↔ PhoneShape phone := by
  constructor
  · intro h
    unfold phoneMatches at h
    split at h
    · next rest heq =>
        simp only [Bool.and_eq_true, decide_eq_true_eq] at h
        exact ⟨rest, Or.inl heq, h.1.1, h.1.2, h.2⟩
    · next rest heq =>
        simp only [Bool.and_eq_true, decide_eq_true_eq] at h
        exact ⟨rest, Or.inr heq, h.1.1, h.1.2, h.2⟩
    · cases h
  · rintro ⟨rest, hcase, h10, h15, hbody⟩
    unfold phoneMatches
    split
    · next rest' heq =>
        rcases hcase with hc | hc
        · rw [hc] at heq
          obtain ⟨_, h2⟩ := List.cons.inj heq
          obtain ⟨_, h3⟩ := List.cons.inj h2
          subst h3
          simp [h10, h15, hbody]
        · rw [hc] at heq
          obtain ⟨h1, _⟩ := List.cons.inj heq
          exact absurd h1 (by decide)
    · next rest' heq =>
        rcases hcase with hc | hc
        · rw [hc] at heq
          obtain ⟨h1, _⟩ := List.cons.inj heq
          exact absurd h1 (by decide)
        · rw [hc] at heq
          obtain ⟨_, h2⟩ := List.cons.inj heq
          subst h2
          simp [h10, h15, hbody]
    · next hn1 hn2 =>
        rcases hcase with hc | hc
        · exact absurd hc (hn1 rest)
        · exact absurd hc (hn2 rest)

/-- C9: the validation does not fail exactly on the claimed shapes.
Python's `$` (outside multiline mode) also matches just before a newline
that ends the string, so an email carrying a trailing `'\n'` — a string that
does not have the `local@domain.tld` shape — is accepted by `Customer`
construction, and the stored email keeps the newline. -/
theorem c9_validation_accepts_trailing_newline :
    Customer.mk? 1 "Ivan" "ivan@example.com\n" "+79991234567" "Main st. 1"
        "Moscow" =
      .ok (⟨1, "Ivan", "ivan@example.com\n", "+79991234567", "Main st. 1",
        "Moscow"⟩ : Customer) ∧
    ¬ EmailShape "ivan@example.com\n" := by
  refine ⟨by rfl, ?_⟩
  intro h
  exact absurd ((emailMatches_iff "ivan@example.com\n").2 h) (by decide)

/-! ## A reference stable sort, and uniqueness of key-stable sorted sequences

`stableSortByKey` is the reference total-order sort used by the spec's
sorting properties: it is sorted by the key and keeps elements with equal
keys in input order.  Any two lists that are sorted by the same key and
agree on every per-key filter are equal, which is how the repository's two
sorting algorithms are later proved equal to the reference. -/

section StableSort

variable {α : Type} {κ : Type} [LinearOrder κ]

/-- Insertion step of the reference stable sort: the new element goes in
front of the first element whose key is not smaller, hence in front of every
equal-key element already present (which all came later in the input). -/
def insertByKey (key : α → κ) (a : α) : List α → List α
  | [] => [a]
  | b :: bs => if key a ≤ key b then a :: b :: bs else b :: insertByKey key a bs

/-- The reference stable sort by a key: insertion sort. -/
def stableSortByKey (key : α → κ) : List α → List α
  | [] => []
  | a :: as => insertByKey key a (stableSortByKey key as)

theorem insertByKey_perm (key : α → κ) (a : α) (l : List α) :
    List.Perm (insertByKey key a l) (a :: l) := by
  induction l with
  | nil => rfl
  | cons b bs ih =>
      unfold insertByKey
      by_cases h : key a ≤ key b
      · rw [if_pos h]
      · rw [if_neg h]
        exact (ih.cons b).trans (List.Perm.swap a b bs)

theorem stableSortByKey_perm (key : α → κ) (l : List α) :
    List.Perm (stableSortByKey key l) l := by
  induction l with
  | nil => rfl
  | cons a as ih =>
      exact (insertByKey_perm key a (stableSortByKey key as)).trans (ih.cons a)

theorem insertByKey_sorted (key : α → κ) (a : α) (l : List α)
    (hl : l.Sorted (fun x y => key x ≤ key y)) :
    (insertByKey key a l).Sorted (fun x y => key x ≤ key y) := by
  induction l with
  | nil => simp [insertByKey]
  | cons b bs ih =>
      unfold insertByKey
      by_cases h : key a ≤ key b
      · rw [if_pos h, List.sorted_cons]
        refine ⟨?_, hl⟩
        intro y hy
        rcases List.mem_cons.1 hy with rfl | hybs
        · exact h
        · exact h.trans (List.rel_of_sorted_cons hl y hybs)
      · rw [if_neg h, List.sorted_cons]
        have hbs : bs.Sorted (fun x y => key x ≤ key y) := hl.of_cons
        refine ⟨?_, ih hbs⟩
        intro y hy
        have hy' := (insertByKey_perm key a bs).mem_iff.1 hy
        rcases List.mem_cons.1 hy' with rfl | hybs
        · exact le_of_not_le h
        · exact List.rel_of_sorted_cons hl y hybs

theorem stableSortByKey_sorted (key : α → κ) (l : List α) :
    (stableSortByKey key l).Sorted (fun x y => key x ≤ key y) := by
  induction l with
  | nil => simp [stableSortByKey]
  | cons a as ih => exact insertByKey_sorted key a _ ih

theorem insertByKey_filter (key : α → κ) (a : α) (l : List α) (k : κ) :
    (insertByKey key a l).filter (fun x => decide (key x = k)) =
      if key a = k then a :: l.filter (fun x => decide (key x = k))
      else l.filter (fun x => decide (key x = k)) := by
  induction l with
  | nil =>
      by_cases h : key a = k
      · simp [insertByKey, h]
      · simp [insertByKey, h]
  | cons b bs ih =>
      unfold insertByKey
      by_cases hab : key a ≤ key b
      · rw [if_pos hab]
        by_cases h : key a = k
        · simp [List.filter_cons, h]
        · simp [List.filter_cons, h]
      · rw [if_neg hab]
        have hba : key b < key a := lt_of_not_le hab
        by_cases h : key a = k
        · have hbk : ¬ (key b = k) := by
            intro hbk
            exact absurd (hbk.trans h.symm) (ne_of_lt hba)
          rw [if_pos h] at ih ⊢
          simp only [List.filter_cons, hbk, decide_eq_true_eq, if_neg hbk, ih]
          simp [hbk]
        · rw [if_neg h] at ih ⊢
          by_cases hbk : key b = k
          · simp [List.filter_cons, hbk, ih]
          · simp [List.filter_cons, hbk, ih]

theorem stableSortByKey_filter (key : α → κ) (l : List α) (k : κ) :
    (stableSortByKey key l).filter (fun x => decide (key x = k)) =
      l.filter (fun x => decide (key x = k)) := by
  induction l with
  | nil => rfl
  | cons a as ih =>
      unfold stableSortByKey
      rw [insertByKey_filter]
      by_cases h : key a = k
      · simp [List.filter_cons, h, ih]
      · simp [List.filter_cons, h, ih]

/-- Two lists sorted by the same key that agree on every per-key filter are
equal: a sorted sequence is determined by its equal-key classes and their
internal order. -/
theorem eq_of_sorted_of_filter_eq (key : α → κ) :
    ∀ (l₁ l₂ : List α),
      l₁.Sorted (fun x y => key x ≤ key y) →
      l₂.Sorted (fun x y => key x ≤ key y) →
      (∀ k, l₁.filter (fun x => decide (key x = k)) =
        l₂.filter (fun x => decide (key x = k))) →
      l₁ = l₂ := by
  intro l₁
  induction l₁ with
  | nil =>
      intro l₂ _ _ hf
      cases l₂ with
      | nil => rfl
      | cons b bs =>
          have := hf (key b)
          simp [List.filter_cons] at this
  | cons a as ih =>
      intro l₂ hs₁ hs₂ hf
      cases l₂ with
      | nil =>
          have := hf (key a)
          simp [List.filter_cons] at this
      | cons b bs =>
          have hba : key b ≤ key a := by
            have h := hf (key a)
            rw [List.filter_cons_of_pos (by simp)] at h
            have hne : (b :: bs).filter (fun x => decide (key x = key a)) ≠ [] := by
              rw [← h]
              simp
            obtain ⟨x, hx⟩ := List.exists_mem_of_ne_nil _ hne
            have hx' := List.mem_filter.1 hx
            have hkey : key x = key a := by simpa using hx'.2
            rcases List.mem_cons.1 hx'.1 with rfl | hxbs
            · exact hkey.le
            · exact hkey ▸ List.rel_of_sorted_cons hs₂ x hxbs
          have hab : key a ≤ key b := by
            have h := hf (key b)
            rw [List.filter_cons_of_pos (a := b) (by simp)] at h
            have hne : (a :: as).filter (fun x => decide (key x = key b)) ≠ [] := by
              rw [h]
              simp
            obtain ⟨x, hx⟩ := List.exists_mem_of_ne_nil _ hne
            have hx' := List.mem_filter.1 hx
            have hkey : key x = key b := by simpa using hx'.2
            rcases List.mem_cons.1 hx'.1 with rfl | hxas
            · exact hkey.le
            · exact hkey ▸ List.rel_of_sorted_cons hs₁ x hxas
          have hkeq : key a = key b := le_antisymm hab hba
          have h := hf (key a)
          rw [List.filter_cons_of_pos (by simp),
            List.filter_cons_of_pos (by simp [hkeq])] at h
          obtain ⟨hab', htails⟩ := List.cons.inj h
          subst hab'
          have hftails : ∀ k, as.filter (fun x => decide (key x = k)) =
              bs.filter (fun x => decide (key x = k)) := by
            intro k
            by_cases hk : key a = k
            · subst hk
              exact htails
            · have h' := hf k
              rw [List.filter_cons_of_neg (by simpa using hk),
                List.filter_cons_of_neg (by simpa [← hkeq] using hk)] at h'
              exact h'
          rw [ih bs hs₁.of_cons hs₂.of_cons hftails]

/-- The reference stable sort fixes every already-sorted list. -/
theorem stableSortByKey_of_sorted (key : α → κ) (l : List α)
    (hl : l.Sorted (fun x y => key x ≤ key y)) : stableSortByKey key l = l :=
  eq_of_sorted_of_filter_eq key _ _ (stableSortByKey_sorted key l) hl
    (fun k => stableSortByKey_filter key l k)

/-- Transfer of per-key filters between a key and its order dual. -/
theorem filter_dualKey_eq (key : α → κ) (l : List α) (k : κᵒᵈ) :
    l.filter (fun x => decide (OrderDual.toDual (key x) = k)) =
      l.filter (fun x => decide (key x = OrderDual.ofDual k)) := by
  apply List.filter_congr
  intro x _
  apply decide_eq_decide.2
  constructor
  · intro h
    simpa using congrArg OrderDual.ofDual h
  · intro h
    simpa using congrArg OrderDual.toDual h

end StableSort

/-! ## The order-sorting utilities of `analysis.py` -/

theorem length_filter_lt_of_mem {α : Type} {p : α → Bool} {l : List α} {x : α}
    (hx : x ∈ l) (hp : p x = false) : (l.filter p).length < l.length :=
  List.length_filter_lt_length_iff_exists.2 ⟨x, hx, by simp [hp]⟩

theorem headI_drop_mem {α : Type} [Inhabited α] {l : List α} {n : Nat}
    (h : n < l.length) : (l.drop n).headI ∈ l := by
  have hlen : 0 < (l.drop n).length := by
    rw [List.length_drop]; omega
  rcases hd : l.drop n with _ | ⟨a, t⟩
  · rw [hd] at hlen; simp at hlen
  · have ha : a ∈ l.drop n := by rw [hd]; exact List.mem_cons_self a t
    exact List.mem_of_mem_drop ha

/-- `analysis.quicksort_orders_by_date`: middle-element pivot, three-way
partition by `order_date` (each partition keeps input order), recursion on
the strict partitions, concatenation in ascending or mirrored descending
order.  `orders[len(orders) // 2]` is total here (the branch guarantees a
non-empty list) and is rendered as `headI` of `drop`. -/
def quicksort_orders_by_date (orders : List Order) (reverse : Bool) : List Order :=
  if h : orders.length ≤ 1 then orders
  else
    if reverse then
      quicksort_orders_by_date (orders.filter fun x =>
          decide ((orders.drop (orders.length / 2)).headI.order_date <
            x.order_date)) reverse ++
        orders.filter (fun x =>
          decide (x.order_date =
            (orders.drop (orders.length / 2)).headI.order_date)) ++
        quicksort_orders_by_date (orders.filter fun x =>
          decide (x.order_date <
            (orders.drop (orders.length / 2)).headI.order_date)) reverse
    else
      quicksort_orders_by_date (orders.filter fun x =>
          decide (x.order_date <
            (orders.drop (orders.length / 2)).headI.order_date)) reverse ++
        orders.filter (fun x =>
          decide (x.order_date =
            (orders.drop (orders.length / 2)).headI.order_date)) ++
        quicksort_orders_by_date (orders.filter fun x =>
          decide ((orders.drop (orders.length / 2)).headI.order_date <
            x.order_date)) reverse
termination_by orders.length
decreasing_by
  · exact length_filter_lt_of_mem
      (headI_drop_mem (n := orders.length / 2) (by omega)) (by simp)
  · exact length_filter_lt_of_mem
      (headI_drop_mem (n := orders.length / 2) (by omega)) (by simp)
  · exact length_filter_lt_of_mem
      (headI_drop_mem (n := orders.length / 2) (by omega)) (by simp)
  · exact length_filter_lt_of_mem
      (headI_drop_mem (n := orders.length / 2) (by omega)) (by simp)

theorem filter_partition_asc {α κ : Type} [LinearOrder κ] (key : α → κ)
    (l : List α) (pk k : κ) :
    ((l.filter fun x => decide (key x < pk)).filter fun x => decide (key x = k)) ++
      ((l.filter fun x => decide (key x = pk)).filter fun x => decide (key x = k)) ++
      ((l.filter fun x => decide (pk < key x)).filter fun x => decide (key x = k)) =
      l.filter fun x => decide (key x = k) := by
  rw [List.filter_filter, List.filter_filter, List.filter_filter]
  rcases lt_trichotomy k pk with hk | hk | hk
  · have h1 : (l.filter fun a => decide (key a = k) && decide (key a < pk)) =
        l.filter fun x => decide (key x = k) :=
      List.filter_congr (fun x _ => by
        by_cases hx : key x = k
        · simp [hx, hk]
        · simp [hx])
    have h2 : (l.filter fun a => decide (key a = k) && decide (key a = pk)) = [] := by
      rw [List.filter_eq_nil_iff]
      intro x _
      simp only [Bool.and_eq_true, decide_eq_true_eq, not_and]
      intro h1x h2x
      exact absurd (h1x.symm.trans h2x) (ne_of_lt hk)
    have h3 : (l.filter fun a => decide (key a = k) && decide (pk < key a)) = [] := by
      rw [List.filter_eq_nil_iff]
      intro x _
      simp only [Bool.and_eq_true, decide_eq_true_eq, not_and]
      intro h1x h2x
      rw [h1x] at h2x
      exact lt_asymm hk h2x
    rw [h1, h2, h3]
    simp
  · subst hk
    have h1 : (l.filter fun a => decide (key a = k) && decide (key a < k)) = [] := by
      rw [List.filter_eq_nil_iff]
      intro x _
      simp only [Bool.and_eq_true, decide_eq_true_eq, not_and]
      intro h1x h2x
      rw [h1x] at h2x
      exact lt_irrefl _ h2x
    have h2 : (l.filter fun a => decide (key a = k) && decide (key a = k)) =
        l.filter fun x => decide (key x = k) :=
      List.filter_congr (fun x _ => Bool.and_self _)
    have h3 : (l.filter fun a => decide (key a = k) && decide (k < key a)) = [] := by
      rw [List.filter_eq_nil_iff]
      intro x _
      simp only [Bool.and_eq_true, decide_eq_true_eq, not_and]
      intro h1x h2x
      rw [h1x] at h2x
      exact lt_irrefl _ h2x
    rw [h1, h2, h3]
    simp
  · have h1 : (l.filter fun a => decide (key a = k) && decide (key a < pk)) = [] := by
      rw [List.filter_eq_nil_iff]
      intro x _
      simp only [Bool.and_eq_true, decide_eq_true_eq, not_and]
      intro h1x h2x
      rw [h1x] at h2x
      exact lt_asymm hk h2x
    have h2 : (l.filter fun a => decide (key a = k) && decide (key a = pk)) = [] := by
      rw [List.filter_eq_nil_iff]
      intro x _
      simp only [Bool.and_eq_true, decide_eq_true_eq, not_and]
      intro h1x h2x
      exact absurd (h1x.symm.trans h2x) (ne_of_lt hk).symm
    have h3 : (l.filter fun a => decide (key a = k) && decide (pk < key a)) =
        l.filter fun x => decide (key x = k) :=
      List.filter_congr (fun x _ => by
        by_cases hx : key x = k
        · simp [hx, hk]
        · simp [hx])
    rw [h1, h2, h3]
    simp

theorem filter_partition_desc {α κ : Type} [LinearOrder κ] (key : α → κ)
    (l : List α) (pk k : κ) :
    ((l.filter fun x => decide (pk < key x)).filter fun x => decide (key x = k)) ++
      ((l.filter fun x => decide (key x = pk)).filter fun x => decide (key x = k)) ++
      ((l.filter fun x => decide (key x < pk)).filter fun x => decide (key x = k)) =
      l.filter fun x => decide (key x = k) := by
  rw [List.filter_filter, List.filter_filter, List.filter_filter]
  rcases lt_trichotomy k pk with hk | hk | hk
  · have h1 : (l.filter fun a => decide (key a = k) && decide (pk < key a)) = [] := by
      rw [List.filter_eq_nil_iff]
      intro x _
      simp only [Bool.and_eq_true, decide_eq_true_eq, not_and]
      intro h1x h2x
      rw [h1x] at h2x
      exact lt_asymm hk h2x
    have h2 : (l.filter fun a => decide (key a = k) && decide (key a = pk)) = [] := by
      rw [List.filter_eq_nil_iff]
      intro x _
      simp only [Bool.and_eq_true, decide_eq_true_eq, not_and]
      intro h1x h2x
      exact absurd (h1x.symm.trans h2x) (ne_of_lt hk)
    have h3 : (l.filter fun a => decide (key a = k) && decide (key a < pk)) =
        l.filter fun x => decide (key x = k) :=
      List.filter_congr (fun x _ => by
        by_cases hx : key x = k
        · simp [hx, hk]
        · simp [hx])
    rw [h1, h2, h3]
    simp
  · subst hk
    have h1 : (l.filter fun a => decide (key a = k) && decide (k < key a)) = [] := by
      rw [List.filter_eq_nil_iff]
      intro x _
      simp only [Bool.and_eq_true, decide_eq_true_eq, not_and]
      intro h1x h2x
      rw [h1x] at h2x
      exact lt_irrefl _ h2x
    have h2 : (l.filter fun a => decide (key a = k) && decide (key a = k)) =
        l.filter fun x => decide (key x = k) :=
      List.filter_congr (fun x _ => Bool.and_self _)
    have h3 : (l.filter fun a => decide (key a = k) && decide (key a < k)) = [] := by
      rw [List.filter_eq_nil_iff]
      intro x _
      simp only [Bool.and_eq_true, decide_eq_true_eq, not_and]
      intro h1x h2x
      rw [h1x] at h2x
      exact lt_irrefl _ h2x
    rw [h1, h2, h3]
    simp
  · have h1 : (l.filter fun a => decide (key a = k) && decide (pk < key a)) =
        l.filter fun x => decide (key x = k) :=
      List.filter_congr (fun x _ => by
        by_cases hx : key x = k
        · simp [hx, hk]
        · simp [hx])
    have h2 : (l.filter fun a => decide (key a = k) && decide (key a = pk)) = [] := by
      rw [List.filter_eq_nil_iff]
      intro x _
      simp only [Bool.and_eq_true, decide_eq_true_eq, not_and]
      intro h1x h2x
      exact absurd (h1x.symm.trans h2x) (ne_of_lt hk).symm
    have h3 : (l.filter fun a => decide (key a = k) && decide (key a < pk)) = [] := by
      rw [List.filter_eq_nil_iff]
      intro x _
      simp only [Bool.and_eq_true, decide_eq_true_eq, not_and]
      intro h1x h2x
      rw [h1x] at h2x
      exact lt_asymm hk h2x
    rw [h1, h2, h3]
    simp

theorem sorted_three_append_asc {α κ : Type} [LinearOrder κ] (key : α → κ)
    (pk : κ) (A B C : List α)
    (hA : A.Sorted (fun x y => key x ≤ key y))
    (hC : C.Sorted (fun x y => key x ≤ key y))
    (hAk : ∀ x ∈ A, key x < pk) (hBk : ∀ x ∈ B, key x = pk)
    (hCk : ∀ x ∈ C, pk < key x) :
    (A ++ B ++ C).Sorted (fun x y => key x ≤ key y) := by
  have hB : B.Sorted (fun x y => key x ≤ key y) :=
    List.pairwise_of_forall_mem_list (fun x hx y hy => by
      rw [hBk x hx, hBk y hy])
  refine List.pairwise_append.2 ⟨List.pairwise_append.2 ⟨hA, hB, ?_⟩, hC, ?_⟩
  · intro x hx y hy
    rw [hBk y hy]
    exact (hAk x hx).le
  · intro x hx y hy
    rcases List.mem_append.1 hx with hxa | hxb
    · exact ((hAk x hxa).trans (hCk y hy)).le
    · rw [hBk x hxb]
      exact (hCk y hy).le

theorem sorted_three_append_desc {α κ : Type} [LinearOrder κ] (key : α → κ)
    (pk : κ) (A B C : List α)
    (hA : A.Sorted (fun x y => key y ≤ key x))
    (hC : C.Sorted (fun x y => key y ≤ key x))
    (hAk : ∀ x ∈ A, pk < key x) (hBk : ∀ x ∈ B, key x = pk)
    (hCk : ∀ x ∈ C, key x < pk) :
    (A ++ B ++ C).Sorted (fun x y => key y ≤ key x) := by
  have hB : B.Sorted (fun x y => key y ≤ key x) :=
    List.pairwise_of_forall_mem_list (fun x hx y hy => by
      rw [hBk x hx, hBk y hy])
  refine List.pairwise_append.2 ⟨List.pairwise_append.2 ⟨hA, hB, ?_⟩, hC, ?_⟩
  · intro x hx y hy
    rw [hBk y hy]
    exact (hAk x hx).le
  · intro x hx y hy
    rcases List.mem_append.1 hx with hxa | hxb
    · exact ((hCk y hy).trans (hAk x hxa)).le
    · rw [hBk x hxb]
      exact (hCk y hy).le

theorem quicksort_filter_aux (reverse : Bool) (k : DateTime) :
    ∀ (n : Nat) (orders : List Order), orders.length ≤ n →
      (quicksort_orders_by_date orders reverse).filter
          (fun x => decide (x.order_date = k)) =
        orders.filter (fun x => decide (x.order_date = k)) := by
  intro n
  induction n with
  | zero =>
      intro orders hlen
      have h0 : orders = [] := List.eq_nil_of_length_eq_zero (Nat.le_zero.1 hlen)
      subst h0
      rw [quicksort_orders_by_date]
      rfl
  | succ n ih =>
      intro orders hlen
      rw [quicksort_orders_by_date]
      by_cases h1 : orders.length ≤ 1
      · rw [dif_pos h1]
      · rw [dif_neg h1]
        set pd := (orders.drop (orders.length / 2)).headI.order_date with hpd
        have hpm : (orders.drop (orders.length / 2)).headI ∈ orders :=
          headI_drop_mem (n := orders.length / 2) (by omega)
        have hlt : ((orders.filter fun x => decide (x.order_date < pd)).length <
            orders.length) :=
          length_filter_lt_of_mem hpm (by simp [← hpd])
        have hgt : ((orders.filter fun x => decide (pd < x.order_date)).length <
            orders.length) :=
          length_filter_lt_of_mem hpm (by simp [← hpd])
        cases reverse with
        | false =>
            rw [if_neg (by simp)]
            rw [List.filter_append, List.filter_append,
              ih _ (by omega), ih _ (by omega)]
            exact filter_partition_asc (fun o : Order => o.order_date) orders pd k
        | true =>
            rw [if_pos rfl]
            rw [List.filter_append, List.filter_append,
              ih _ (by omega), ih _ (by omega)]
            exact filter_partition_desc (fun o : Order => o.order_date) orders pd k

theorem quicksort_filter (orders : List Order) (reverse : Bool) (k : DateTime) :
    (quicksort_orders_by_date orders reverse).filter
        (fun x => decide (x.order_date = k)) =
      orders.filter (fun x => decide (x.order_date = k)) :=
  quicksort_filter_aux reverse k orders.length orders le_rfl

theorem mem_quicksort {orders : List Order} {reverse : Bool} {x : Order} :
    x ∈ quicksort_orders_by_date orders reverse ↔ x ∈ orders := by
  have h := quicksort_filter orders reverse x.order_date
  constructor
  · intro hx
    have hmem : x ∈ (quicksort_orders_by_date orders reverse).filter
        (fun y => decide (y.order_date = x.order_date)) :=
      List.mem_filter.2 ⟨hx, by simp⟩
    rw [h] at hmem
    exact (List.mem_filter.1 hmem).1
  · intro hx
    have hmem : x ∈ orders.filter
        (fun y => decide (y.order_date = x.order_date)) :=
      List.mem_filter.2 ⟨hx, by simp⟩
    rw [← h] at hmem
    exact (List.mem_filter.1 hmem).1

theorem quicksort_sorted_aux :
    ∀ (n : Nat) (orders : List Order), orders.length ≤ n →
      (quicksort_orders_by_date orders false).Sorted
        (fun x y : Order => x.order_date ≤ y.order_date) ∧
      (quicksort_orders_by_date orders true).Sorted
        (fun x y : Order => y.order_date ≤ x.order_date) := by
  intro n
  induction n with
  | zero =>
      intro orders hlen
      have h0 : orders = [] := List.eq_nil_of_length_eq_zero (Nat.le_zero.1 hlen)
      subst h0
      constructor
      · rw [quicksort_orders_by_date]
        exact List.sorted_nil
      · rw [quicksort_orders_by_date]
        exact List.sorted_nil
  | succ n ih =>
      intro orders hlen
      by_cases h1 : orders.length ≤ 1
      · have e1 : quicksort_orders_by_date orders false = orders := by
          rw [quicksort_orders_by_date, dif_pos h1]
        have e2 : quicksort_orders_by_date orders true = orders := by
          rw [quicksort_orders_by_date, dif_pos h1]
        rw [e1, e2]
        rcases orders with _ | ⟨a, _ | ⟨b, t⟩⟩
        · exact ⟨List.sorted_nil, List.sorted_nil⟩
        · exact ⟨List.sorted_singleton a, List.sorted_singleton a⟩
        · simp at h1
      · have hpm : (orders.drop (orders.length / 2)).headI ∈ orders :=
          headI_drop_mem (n := orders.length / 2) (by omega)
        have hlt : ((orders.filter fun x => decide (x.order_date <
            (orders.drop (orders.length / 2)).headI.order_date)).length <
            orders.length) :=
          length_filter_lt_of_mem hpm (by simp)
        have hgt : ((orders.filter fun x => decide
            ((orders.drop (orders.length / 2)).headI.order_date <
              x.order_date)).length < orders.length) :=
          length_filter_lt_of_mem hpm (by simp)
        constructor
        · rw [quicksort_orders_by_date, dif_neg h1, if_neg (by simp)]
          refine sorted_three_append_asc (fun o : Order => o.order_date)
            (orders.drop (orders.length / 2)).headI.order_date _ _ _
            ((ih _ (by omega)).1) ((ih _ (by omega)).1) ?_ ?_ ?_
          · intro x hx
            have := List.mem_filter.1 (mem_quicksort.1 hx)
            simpa using this.2
          · intro x hx
            have := List.mem_filter.1 hx
            simpa using this.2
          · intro x hx
            have := List.mem_filter.1 (mem_quicksort.1 hx)
            simpa using this.2
        · rw [quicksort_orders_by_date, dif_neg h1, if_pos rfl]
          refine sorted_three_append_desc (fun o : Order => o.order_date)
            (orders.drop (orders.length / 2)).headI.order_date _ _ _
            ((ih _ (by omega)).2) ((ih _ (by omega)).2) ?_ ?_ ?_
          · intro x hx
            have := List.mem_filter.1 (mem_quicksort.1 hx)
            simpa using this.2
          · intro x hx
            have := List.mem_filter.1 hx
            simpa using this.2
          · intro x hx
            have := List.mem_filter.1 (mem_quicksort.1 hx)
            simpa using this.2

/-- `analysis.merge_two_sorted_lists`: merge two sorted runs by `get_total`,
taking from the left on ties (`<=` ascending, `>=` descending), then append
the leftover tail. -/
def merge_two_sorted_lists (left right : List Order) (reverse : Bool) :
    List Order :=
  match left, right with
  | [], r => r
  | l, [] => l
  | a :: ls, b :: rs =>
    if reverse then
      if b.get_total ≤ a.get_total then
        a :: merge_two_sorted_lists ls (b :: rs) reverse
      else b :: merge_two_sorted_lists (a :: ls) rs reverse
    else
      if a.get_total ≤ b.get_total then
        a :: merge_two_sorted_lists ls (b :: rs) reverse
      else b :: merge_two_sorted_lists (a :: ls) rs reverse
termination_by left.length + right.length

/-- `analysis.merge_sort_orders_by_total`: halve at the midpoint, sort the
halves, merge. -/
def merge_sort_orders_by_total (orders : List Order) (reverse : Bool) :
    List Order :=
  if h : orders.length ≤ 1 then orders
  else
    merge_two_sorted_lists
      (merge_sort_orders_by_total (orders.take (orders.length / 2)) reverse)
      (merge_sort_orders_by_total (orders.drop (orders.length / 2)) reverse)
      reverse
termination_by orders.length
decreasing_by
  · rw [List.length_take]; omega
  · rw [List.length_drop]; omega

theorem merge_nil_left (r : List Order) (rev : Bool) :
    merge_two_sorted_lists [] r rev = r := by
  rw [merge_two_sorted_lists]

theorem merge_nil_right (l : List Order) (rev : Bool) :
    merge_two_sorted_lists l [] rev = l := by
  cases l with
  | nil => rw [merge_two_sorted_lists]
  | cons a ls => rw [merge_two_sorted_lists] <;> simp

theorem merge_perm_aux (rev : Bool) :
    ∀ (n : Nat) (l r : List Order), l.length + r.length ≤ n →
      List.Perm (merge_two_sorted_lists l r rev) (l ++ r) := by
  intro n
  induction n with
  | zero =>
      intro l r hlen
      have hl : l = [] := List.eq_nil_of_length_eq_zero (by omega)
      have hr : r = [] := List.eq_nil_of_length_eq_zero (by omega)
      subst hl; subst hr
      rw [merge_nil_left]
      exact List.Perm.refl _
  | succ n ih =>
      intro l r hlen
      rcases l with _ | ⟨a, ls⟩
      · rw [merge_nil_left]
        exact List.Perm.refl _
      · rcases r with _ | ⟨b, rs⟩
        · rw [merge_nil_right]
          simpa using List.Perm.refl (a :: ls)
        · rw [merge_two_sorted_lists]
          have h1 : ls.length + (b :: rs).length ≤ n := by
            simp at hlen ⊢; omega
          have h2 : (a :: ls).length + rs.length ≤ n := by
            simp at hlen ⊢; omega
          cases rev with
          | false =>
              rw [if_neg (by simp)]
              by_cases hab : a.get_total ≤ b.get_total
              · rw [if_pos hab]
                exact ((ih ls (b :: rs) h1).cons a)
              · rw [if_neg hab]
                exact ((ih (a :: ls) rs h2).cons b).trans
                  List.perm_middle.symm
          | true =>
              rw [if_pos rfl]
              by_cases hab : b.get_total ≤ a.get_total
              · rw [if_pos hab]
                exact ((ih ls (b :: rs) h1).cons a)
              · rw [if_neg hab]
                exact ((ih (a :: ls) rs h2).cons b).trans
                  List.perm_middle.symm

theorem merge_perm (l r : List Order) (rev : Bool) :
    List.Perm (merge_two_sorted_lists l r rev) (l ++ r) :=
  merge_perm_aux rev (l.length + r.length) l r le_rfl

theorem mem_merge {l r : List Order} {rev : Bool} {x : Order} :
    x ∈ merge_two_sorted_lists l r rev ↔ x ∈ l ∨ x ∈ r := by
  rw [(merge_perm l r rev).mem_iff, List.mem_append]

theorem merge_sorted_asc :
    ∀ (n : Nat) (l r : List Order), l.length + r.length ≤ n →
      l.Sorted (fun x y : Order => x.get_total ≤ y.get_total) →
      r.Sorted (fun x y : Order => x.get_total ≤ y.get_total) →
      (merge_two_sorted_lists l r false).Sorted
        (fun x y : Order => x.get_total ≤ y.get_total) := by
  intro n
  induction n with
  | zero =>
      intro l r hlen _ _
      have hl : l = [] := List.eq_nil_of_length_eq_zero (by omega)
      have hr : r = [] := List.eq_nil_of_length_eq_zero (by omega)
      subst hl; subst hr
      rw [merge_nil_left]
      exact List.sorted_nil
  | succ n ih =>
      intro l r hlen hl hr
      rcases l with _ | ⟨a, ls⟩
      · rw [merge_nil_left]
        exact hr
      · rcases r with _ | ⟨b, rs⟩
        · rw [merge_nil_right]
          exact hl
        · rw [merge_two_sorted_lists, if_neg (by simp)]
          have h1 : ls.length + (b :: rs).length ≤ n := by
            simp at hlen ⊢; omega
          have h2 : (a :: ls).length + rs.length ≤ n := by
            simp at hlen ⊢; omega
          by_cases hab : a.get_total ≤ b.get_total
          · rw [if_pos hab, List.sorted_cons]
            refine ⟨?_, ih ls (b :: rs) h1 hl.of_cons hr⟩
            intro y hy
            rcases mem_merge.1 hy with hyl | hyr
            · exact List.rel_of_sorted_cons hl y hyl
            · rcases List.mem_cons.1 hyr with rfl | hyrs
              · exact hab
              · exact hab.trans (List.rel_of_sorted_cons hr y hyrs)
          · rw [if_neg hab, List.sorted_cons]
            have hba : b.get_total < a.get_total := lt_of_not_le hab
            refine ⟨?_, ih (a :: ls) rs h2 hl hr.of_cons⟩
            intro y hy
            rcases mem_merge.1 hy with hyl | hyr
            · rcases List.mem_cons.1 hyl with rfl | hyls
              · exact hba.le
              · exact hba.le.trans (List.rel_of_sorted_cons hl y hyls)
            · exact List.rel_of_sorted_cons hr y hyr

theorem merge_sorted_desc :
    ∀ (n : Nat) (l r : List Order), l.length + r.length ≤ n →
      l.Sorted (fun x y : Order => y.get_total ≤ x.get_total) →
      r.Sorted (fun x y : Order => y.get_total ≤ x.get_total) →
      (merge_two_sorted_lists l r true).Sorted
        (fun x y : Order => y.get_total ≤ x.get_total) := by
  intro n
  induction n with
  | zero =>
      intro l r hlen _ _
      have hl : l = [] := List.eq_nil_of_length_eq_zero (by omega)
      have hr : r = [] := List.eq_nil_of_length_eq_zero (by omega)
      subst hl; subst hr
      rw [merge_nil_left]
      exact List.sorted_nil
  | succ n ih =>
      intro l r hlen hl hr
      rcases l with _ | ⟨a, ls⟩
      · rw [merge_nil_left]
        exact hr
      · rcases r with _ | ⟨b, rs⟩
        · rw [merge_nil_right]
          exact hl
        · rw [merge_two_sorted_lists, if_pos rfl]
          have h1 : ls.length + (b :: rs).length ≤ n := by
            simp at hlen ⊢; omega
          have h2 : (a :: ls).length + rs.length ≤ n := by
            simp at hlen ⊢; omega
          by_cases hab : b.get_total ≤ a.get_total
          · rw [if_pos hab, List.sorted_cons]
            refine ⟨?_, ih ls (b :: rs) h1 hl.of_cons hr⟩
            intro y hy
            rcases mem_merge.1 hy with hyl | hyr
            · exact List.rel_of_sorted_cons hl y hyl
            · rcases List.mem_cons.1 hyr with rfl | hyrs
              · exact hab
              · exact (List.rel_of_sorted_cons hr y hyrs).trans hab
          · rw [if_neg hab, List.sorted_cons]
            have hba : a.get_total < b.get_total := lt_of_not_le hab
            refine ⟨?_, ih (a :: ls) rs h2 hl hr.of_cons⟩
            intro y hy
            rcases mem_merge.1 hy with hyl | hyr
            · rcases List.mem_cons.1 hyl with rfl | hyls
              · exact hba.le
              · exact (List.rel_of_sorted_cons hl y hyls).trans hba.le
            · exact List.rel_of_sorted_cons hr y hyr

theorem merge_filter_asc (k : ℚ) :
    ∀ (n : Nat) (l r : List Order), l.length + r.length ≤ n →
      l.Sorted (fun x y : Order => x.get_total ≤ y.get_total) →
      (merge_two_sorted_lists l r false).filter
          (fun x => decide (x.get_total = k)) =
        l.filter (fun x => decide (x.get_total = k)) ++
          r.filter (fun x => decide (x.get_total = k)) := by
  intro n
  induction n with
  | zero =>
      intro l r hlen _
      have hl : l = [] := List.eq_nil_of_length_eq_zero (by omega)
      have hr : r = [] := List.eq_nil_of_length_eq_zero (by omega)
      subst hl; subst hr
      rw [merge_nil_left]
      rfl
  | succ n ih =>
      intro l r hlen hl
      rcases l with _ | ⟨a, ls⟩
      · rw [merge_nil_left]
        rfl
      · rcases r with _ | ⟨b, rs⟩
        · rw [merge_nil_right]
          simp
        · rw [merge_two_sorted_lists, if_neg (by simp)]
          have h1 : ls.length + (b :: rs).length ≤ n := by
            simp at hlen ⊢; omega
          have h2 : (a :: ls).length + rs.length ≤ n := by
            simp at hlen ⊢; omega
          by_cases hab : a.get_total ≤ b.get_total
          · rw [if_pos hab]
            rw [List.filter_cons, List.filter_cons]
            by_cases hak : a.get_total = k
            · rw [if_pos (by simp [hak]), if_pos (by simp [hak]),
                ih ls (b :: rs) h1 hl.of_cons]
              simp
            · rw [if_neg (by simp [hak]), if_neg (by simp [hak]),
                ih ls (b :: rs) h1 hl.of_cons]
          · rw [if_neg hab]
            have hba : b.get_total < a.get_total := lt_of_not_le hab
            rw [List.filter_cons]
            by_cases hbk : b.get_total = k
            · have hnil : (a :: ls).filter (fun x => decide (x.get_total = k)) =
                  [] := by
                rw [List.filter_eq_nil_iff]
                intro x hx
                simp only [decide_eq_true_eq]
                intro hxk
                have hax : a.get_total ≤ x.get_total := by
                  rcases List.mem_cons.1 hx with rfl | hxls
                  · exact le_refl _
                  · exact List.rel_of_sorted_cons hl x hxls
                rw [hxk, ← hbk] at hax
                exact absurd hax (not_le.2 hba)
              rw [if_pos (by simp [hbk]), ih (a :: ls) rs h2 hl, hnil]
              simp [List.filter_cons, hbk]
            · rw [if_neg (by simp [hbk]), ih (a :: ls) rs h2 hl]
              simp [List.filter_cons, hbk]

theorem merge_filter_desc (k : ℚ) :
    ∀ (n : Nat) (l r : List Order), l.length + r.length ≤ n →
      l.Sorted (fun x y : Order => y.get_total ≤ x.get_total) →
      (merge_two_sorted_lists l r true).filter
          (fun x => decide (x.get_total = k)) =
        l.filter (fun x => decide (x.get_total = k)) ++
          r.filter (fun x => decide (x.get_total = k)) := by
  intro n
  induction n with
  | zero =>
      intro l r hlen _
      have hl : l = [] := List.eq_nil_of_length_eq_zero (by omega)
      have hr : r = [] := List.eq_nil_of_length_eq_zero (by omega)
      subst hl; subst hr
      rw [merge_nil_left]
      rfl
  | succ n ih =>
      intro l r hlen hl
      rcases l with _ | ⟨a, ls⟩
      · rw [merge_nil_left]
        rfl
      · rcases r with _ | ⟨b, rs⟩
        · rw [merge_nil_right]
          simp
        · rw [merge_two_sorted_lists, if_pos rfl]
          have h1 : ls.length + (b :: rs).length ≤ n := by
            simp at hlen ⊢; omega
          have h2 : (a :: ls).length + rs.length ≤ n := by
            simp at hlen ⊢; omega
          by_cases hab : b.get_total ≤ a.get_total
          · rw [if_pos hab]
            rw [List.filter_cons, List.filter_cons]
            by_cases hak : a.get_total = k
            · rw [if_pos (by simp [hak]), if_pos (by simp [hak]),
                ih ls (b :: rs) h1 hl.of_cons]
              simp
            · rw [if_neg (by simp [hak]), if_neg (by simp [hak]),
                ih ls (b :: rs) h1 hl.of_cons]
          · rw [if_neg hab]
            have hba : a.get_total < b.get_total := lt_of_not_le hab
            rw [List.filter_cons]
            by_cases hbk : b.get_total = k
            · have hnil : (a :: ls).filter (fun x => decide (x.get_total = k)) =
                  [] := by
                rw [List.filter_eq_nil_iff]
                intro x hx
                simp only [decide_eq_true_eq]
                intro hxk
                have hax : x.get_total ≤ a.get_total := by
                  rcases List.mem_cons.1 hx with rfl | hxls
                  · exact le_refl _
                  · exact List.rel_of_sorted_cons hl x hxls
                rw [hxk, ← hbk] at hax
                exact absurd hax (not_le.2 hba)
              rw [if_pos (by simp [hbk]), ih (a :: ls) rs h2 hl, hnil]
              simp [List.filter_cons, hbk]
            · rw [if_neg (by simp [hbk]), ih (a :: ls) rs h2 hl]
              simp [List.filter_cons, hbk]

theorem mergesort_sorted_aux :
    ∀ (n : Nat) (orders : List Order), orders.length ≤ n →
      (merge_sort_orders_by_total orders false).Sorted
        (fun x y : Order => x.get_total ≤ y.get_total) ∧
      (merge_sort_orders_by_total orders true).Sorted
        (fun x y : Order => y.get_total ≤ x.get_total) := by
  intro n
  induction n with
  | zero =>
      intro orders hlen
      have h0 : orders = [] := List.eq_nil_of_length_eq_zero (Nat.le_zero.1 hlen)
      subst h0
      constructor
      · rw [merge_sort_orders_by_total]
        exact List.sorted_nil
      · rw [merge_sort_orders_by_total]
        exact List.sorted_nil
  | succ n ih =>
      intro orders hlen
      by_cases h1 : orders.length ≤ 1
      · have e1 : merge_sort_orders_by_total orders false = orders := by
          rw [merge_sort_orders_by_total, dif_pos h1]
        have e2 : merge_sort_orders_by_total orders true = orders := by
          rw [merge_sort_orders_by_total, dif_pos h1]
        rw [e1, e2]
        rcases orders with _ | ⟨a, _ | ⟨b, t⟩⟩
        · exact ⟨List.sorted_nil, List.sorted_nil⟩
        · exact ⟨List.sorted_singleton a, List.sorted_singleton a⟩
        · simp at h1
      · have hlt : (orders.take (orders.length / 2)).length < orders.length := by
          rw [List.length_take]; omega
        have hgt : (orders.drop (orders.length / 2)).length < orders.length := by
          rw [List.length_drop]; omega
        constructor
        · rw [merge_sort_orders_by_total, dif_neg h1]
          exact merge_sorted_asc _ _ _ le_rfl
            ((ih (orders.take (orders.length / 2)) (by omega)).1)
            ((ih (orders.drop (orders.length / 2)) (by omega)).1)
        · rw [merge_sort_orders_by_total, dif_neg h1]
          exact merge_sorted_desc _ _ _ le_rfl
            ((ih (orders.take (orders.length / 2)) (by omega)).2)
            ((ih (orders.drop (orders.length / 2)) (by omega)).2)

theorem mergesort_sorted (orders : List Order) :
    (merge_sort_orders_by_total orders false).Sorted
      (fun x y : Order => x.get_total ≤ y.get_total) ∧
    (merge_sort_orders_by_total orders true).Sorted
      (fun x y : Order => y.get_total ≤ x.get_total) :=
  mergesort_sorted_aux orders.length orders le_rfl

theorem mergesort_filter_aux (k : ℚ) :
    ∀ (n : Nat) (orders : List Order), orders.length ≤ n →
      (merge_sort_orders_by_total orders false).filter
          (fun x => decide (x.get_total = k)) =
        orders.filter (fun x => decide (x.get_total = k)) ∧
      (merge_sort_orders_by_total orders true).filter
          (fun x => decide (x.get_total = k)) =
        orders.filter (fun x => decide (x.get_total = k)) := by
  intro n
  induction n with
  | zero =>
      intro orders hlen
      have h0 : orders = [] := List.eq_nil_of_length_eq_zero (Nat.le_zero.1 hlen)
      subst h0
      constructor
      · rw [merge_sort_orders_by_total]
        rfl
      · rw [merge_sort_orders_by_total]
        rfl
  | succ n ih =>
      intro orders hlen
      by_cases h1 : orders.length ≤ 1
      · have e1 : merge_sort_orders_by_total orders false = orders := by
          rw [merge_sort_orders_by_total, dif_pos h1]
        have e2 : merge_sort_orders_by_total orders true = orders := by
          rw [merge_sort_orders_by_total, dif_pos h1]
        rw [e1, e2]
        exact ⟨rfl, rfl⟩
      · have hlt : (orders.take (orders.length / 2)).length < orders.length := by
          rw [List.length_take]; omega
        have hgt : (orders.drop (orders.length / 2)).length < orders.length := by
          rw [List.length_drop]; omega
        constructor
        · have hsL := (mergesort_sorted
            (orders.take (orders.length / 2))).1
          have hm := merge_filter_asc k
            ((merge_sort_orders_by_total (orders.take (orders.length / 2))
                false).length +
              (merge_sort_orders_by_total (orders.drop (orders.length / 2))
                false).length)
            (merge_sort_orders_by_total (orders.take (orders.length / 2)) false)
            (merge_sort_orders_by_total (orders.drop (orders.length / 2)) false)
            le_rfl hsL
          rw [merge_sort_orders_by_total, dif_neg h1, hm,
            (ih (orders.take (orders.length / 2)) (by omega)).1,
            (ih (orders.drop (orders.length / 2)) (by omega)).1,
            ← List.filter_append, List.take_append_drop]
        · have hsL := (mergesort_sorted
            (orders.take (orders.length / 2))).2
          have hm := merge_filter_desc k
            ((merge_sort_orders_by_total (orders.take (orders.length / 2))
                true).length +
              (merge_sort_orders_by_total (orders.drop (orders.length / 2))
                true).length)
            (merge_sort_orders_by_total (orders.take (orders.length / 2)) true)
            (merge_sort_orders_by_total (orders.drop (orders.length / 2)) true)
            le_rfl hsL
          rw [merge_sort_orders_by_total, dif_neg h1, hm,
            (ih (orders.take (orders.length / 2)) (by omega)).2,
            (ih (orders.drop (orders.length / 2)) (by omega)).2,
            ← List.filter_append, List.take_append_drop]

theorem mergesort_filter (orders : List Order) (reverse : Bool) (k : ℚ) :
    (merge_sort_orders_by_total orders reverse).filter
        (fun x => decide (x.get_total = k)) =
      orders.filter (fun x => decide (x.get_total = k)) := by
  cases reverse with
  | false => exact (mergesort_filter_aux k orders.length orders le_rfl).1
  | true => exact (mergesort_filter_aux k orders.length orders le_rfl).2

/-- The reference stable sort of orders by `order_date` in the requested
direction, written from the spec's words: sorted by date, and elements with
equal dates keep their input order. -/
def refSortOrdersByDate (orders : List Order) (reverse : Bool) : List Order :=
  if reverse then
    stableSortByKey (fun o : Order => OrderDual.toDual o.order_date) orders
  else stableSortByKey (fun o : Order => o.order_date) orders

/-- The reference stable sort of orders by `order_total` in the requested
direction, written from the spec's words. -/
def refSortOrdersByTotal (orders : List Order) (reverse : Bool) : List Order :=
  if reverse then
    stableSortByKey (fun o : Order => OrderDual.toDual o.get_total) orders
  else stableSortByKey (fun o : Order => o.get_total) orders

theorem quicksort_eq_refSort (orders : List Order) (reverse : Bool) :
    quicksort_orders_by_date orders reverse =
      refSortOrdersByDate orders reverse := by
  cases reverse with
  | false =>
      unfold refSortOrdersByDate
      rw [if_neg (by simp)]
      exact eq_of_sorted_of_filter_eq (fun o : Order => o.order_date) _ _
        (quicksort_sorted_aux orders.length orders le_rfl).1
        (stableSortByKey_sorted _ orders)
        (fun k => (quicksort_filter orders false k).trans
          (stableSortByKey_filter (fun o : Order => o.order_date) orders k).symm)
  | true =>
      unfold refSortOrdersByDate
      rw [if_pos rfl]
      refine eq_of_sorted_of_filter_eq
        (fun o : Order => OrderDual.toDual o.order_date) _ _
        ?_ (stableSortByKey_sorted _ orders) ?_
      · exact (quicksort_sorted_aux orders.length orders le_rfl).2
      · intro k
        have h2 := stableSortByKey_filter
          (fun o : Order => OrderDual.toDual o.order_date) orders k
        rw [filter_dualKey_eq (fun o : Order => o.order_date) _ k,
          filter_dualKey_eq (fun o : Order => o.order_date) _ k] at h2
        rw [filter_dualKey_eq (fun o : Order => o.order_date) _ k,
          filter_dualKey_eq (fun o : Order => o.order_date) _ k]
        exact (quicksort_filter orders true (OrderDual.ofDual k)).trans h2.symm

theorem mergesort_eq_refSort (orders : List Order) (reverse : Bool) :
    merge_sort_orders_by_total orders reverse =
      refSortOrdersByTotal orders reverse := by
  cases reverse with
  | false =>
      unfold refSortOrdersByTotal
      rw [if_neg (by simp)]
      exact eq_of_sorted_of_filter_eq (fun o : Order => o.get_total) _ _
        (mergesort_sorted orders).1
        (stableSortByKey_sorted _ orders)
        (fun k => (mergesort_filter orders false k).trans
          (stableSortByKey_filter (fun o : Order => o.get_total) orders k).symm)
  | true =>
      unfold refSortOrdersByTotal
      rw [if_pos rfl]
      refine eq_of_sorted_of_filter_eq
        (fun o : Order => OrderDual.toDual o.get_total) _ _
        ?_ (stableSortByKey_sorted _ orders) ?_
      · exact (mergesort_sorted orders).2
      · intro k
        have h2 := stableSortByKey_filter
          (fun o : Order => OrderDual.toDual o.get_total) orders k
        rw [filter_dualKey_eq (fun o : Order => o.get_total) _ k,
          filter_dualKey_eq (fun o : Order => o.get_total) _ k] at h2
        rw [filter_dualKey_eq (fun o : Order => o.get_total) _ k,
          filter_dualKey_eq (fun o : Order => o.get_total) _ k]
        exact (mergesort_filter orders true (OrderDual.ofDual k)).trans h2.symm

/-- C4: both sorting utilities agree element-for-element with the stable
reference sort on their key and direction; both are idempotent; both return
empty and singleton inputs unchanged. -/
theorem c4_sorting_algorithms (orders : List Order) (reverse : Bool) :
    quicksort_orders_by_date orders reverse =
      refSortOrdersByDate orders reverse ∧
    merge_sort_orders_by_total orders reverse =
      refSortOrdersByTotal orders reverse ∧
    quicksort_orders_by_date (quicksort_orders_by_date orders reverse) reverse =
      quicksort_orders_by_date orders reverse ∧
    merge_sort_orders_by_total (merge_sort_orders_by_total orders reverse)
        reverse =
      merge_sort_orders_by_total orders reverse ∧
    quicksort_orders_by_date [] reverse = [] ∧
    merge_sort_orders_by_total [] reverse = [] ∧
    ∀ o : Order, quicksort_orders_by_date [o] reverse = [o] ∧
      merge_sort_orders_by_total [o] reverse = [o] := by
  refine ⟨quicksort_eq_refSort orders reverse,
    mergesort_eq_refSort orders reverse, ?_, ?_, ?_, ?_, ?_⟩
  · rw [quicksort_eq_refSort (quicksort_orders_by_date orders reverse) reverse]
    cases reverse with
    | false =>
        unfold refSortOrdersByDate
        rw [if_neg (by simp)]
        exact stableSortByKey_of_sorted _ _
          (quicksort_sorted_aux orders.length orders le_rfl).1
    | true =>
        unfold refSortOrdersByDate
        rw [if_pos rfl]
        exact stableSortByKey_of_sorted
          (fun o : Order => OrderDual.toDual o.order_date) _
          (quicksort_sorted_aux orders.length orders le_rfl).2
  · rw [mergesort_eq_refSort (merge_sort_orders_by_total orders reverse) reverse]
    cases reverse with
    | false =>
        unfold refSortOrdersByTotal
        rw [if_neg (by simp)]
        exact stableSortByKey_of_sorted _ _ (mergesort_sorted orders).1
    | true =>
        unfold refSortOrdersByTotal
        rw [if_pos rfl]
        exact stableSortByKey_of_sorted
          (fun o : Order => OrderDual.toDual o.get_total) _
          (mergesort_sorted orders).2
  · rw [quicksort_orders_by_date]
    rfl
  · rw [merge_sort_orders_by_total]
    rfl
  · intro o
    constructor
    · rw [quicksort_orders_by_date]
      rfl
    · rw [merge_sort_orders_by_total]
      rfl

/-! ## Sales dynamics (`DataAnalyzer.get_sales_dynamics`)

`get_sales_dynamics` groups the orders dataframe by a calendar bucket of the
order date — the date itself, the pandas weekly period (a week identified by
its Monday-to-Sunday span), or the calendar month — and aggregates order
count, revenue sum and item-count sum per bucket, with rows sorted by
period. -/

/-- A grouping bucket: a calendar day, a week (identified by the rata-die
number of its Monday, as pandas `Period('W')` identifies a week by its
span), or a calendar month. -/
inductive PeriodKey where
  | day (y m d : Nat)
  | week (monday : Nat)
  | month (y m : Nat)
deriving DecidableEq

/-- Days since 0000-03-01 of the proleptic Gregorian calendar (standard
civil-calendar formula, valid from year 1 on). -/
def rataDie (y m d : Nat) : Nat :=
  let y' := if m ≤ 2 then y - 1 else y
  let m' := if m ≤ 2 then m + 12 else m
  365 * y' + y' / 4 - y' / 100 + y' / 400 + (153 * (m' - 3) + 2) / 5 + d - 1

/-- ISO weekday, Monday = 1 … Sunday = 7 (0000-03-01 was a Wednesday). -/
def isoWeekday (y m d : Nat) : Nat :=
  (rataDie y m d + 2) % 7 + 1

/-- Rata-die number of the Monday of the week containing the given date. -/
def mondayOf (y m d : Nat) : Nat :=
  rataDie y m d - (isoWeekday y m d - 1)

/-- The `if period == 'weekly' / elif 'monthly' / else daily` selector of
`get_sales_dynamics`: any unrecognized selector falls into the daily
branch. -/
def periodKey (period : String) (d : DateTime) : PeriodKey :=
  if period = "weekly" then .week (mondayOf d.year d.month d.day)
  else if period = "monthly" then .month d.year d.month
  else .day d.year d.month d.day

/-- Sort key giving the ascending period order of the grouped rows; all keys
of one call share a constructor, so the leading tag never decides. -/
def PeriodKey.sortKey : PeriodKey → Nat ×ₗ Nat ×ₗ Nat ×ₗ Nat
  | .day y m d => toLex (0, toLex (y, toLex (m, d)))
  | .week monday => toLex (1, toLex (monday, toLex (0, 0)))
  | .month y m => toLex (2, toLex (y, toLex (m, 0)))

/-- One row of the sales-dynamics result. -/
structure DynamicsRow where
  period : PeriodKey
  orders_count : Nat
  total_revenue : ℚ
  total_items : Int
deriving DecidableEq

/-- `DataAnalyzer.get_sales_dynamics`: one row per observed period, carrying
the order count, the revenue sum and the item-count sum of that period's
orders, rows sorted by period. -/
def get_sales_dynamics (orders : List Order) (period : String) :
    List DynamicsRow :=
  stableSortByKey (fun r => r.period.sortKey)
    (((orders.map fun o => periodKey period o.order_date).dedup).map fun k =>
      { period := k
        orders_count :=
          (orders.filter fun o => decide (periodKey period o.order_date = k)).length
        total_revenue :=
          ((orders.filter fun o =>
            decide (periodKey period o.order_date = k)).map Order.get_total).sum
        total_items :=
          ((orders.filter fun o =>
            decide (periodKey period o.order_date = k)).map
              Order.get_items_count).sum })

theorem sum_map_filter_split {α M : Type} [AddCommMonoid M] (p : α → Bool)
    (f : α → M) (l : List α) :
    ((l.filter p).map f).sum + ((l.filter fun a => !p a).map f).sum =
      (l.map f).sum := by
  induction l with
  | nil => simp
  | cons a as ih =>
      by_cases hp : p a
      · simp only [List.filter_cons, hp, if_pos, List.map_cons, List.sum_cons,
          Bool.not_true, decide_eq_true_eq]
        rw [← ih]
        simp [hp, add_assoc]
      · have hp' : p a = false := by
          cases hpa : p a
          · rfl
          · exact absurd hpa hp
        simp only [List.filter_cons, hp', List.map_cons, List.sum_cons]
        rw [← ih]
        simp [hp', add_left_comm]

theorem sum_filter_key_eq {α κ M : Type} [DecidableEq κ] [AddCommMonoid M]
    (key : α → κ) (f : α → M) :
    ∀ (ks : List κ) (l : List α), ks.Nodup → (∀ a ∈ l, key a ∈ ks) →
      (ks.map fun k => ((l.filter fun a => decide (key a = k)).map f).sum).sum =
        (l.map f).sum := by
  intro ks
  induction ks with
  | nil =>
      intro l _ hmem
      cases l with
      | nil => simp
      | cons a as => exact absurd (hmem a (by simp)) (by simp)
  | cons k ks ih =>
      intro l hnd hmem
      simp only [List.map_cons, List.sum_cons]
      have hks : (ks.map fun k' =>
            ((l.filter fun a => decide (key a = k')).map f).sum).sum =
          (ks.map fun k' =>
            (((l.filter fun a => !decide (key a = k)).filter
              fun a => decide (key a = k')).map f).sum).sum := by
        refine congrArg List.sum (List.map_congr_left ?_)
        intro k' hk'
        have hkk : k' ≠ k := by
          intro he
          rw [he] at hk'
          exact (List.nodup_cons.1 hnd).1 hk'
        have hfe : (l.filter fun a => decide (key a = k')) =
            ((l.filter fun a => !decide (key a = k)).filter
              fun a => decide (key a = k')) := by
          rw [List.filter_filter]
          apply List.filter_congr
          intro x _
          by_cases hx : key x = k'
          · simp [hx, hkk]
          · simp [hx]
        rw [← hfe]
      rw [hks, ih _ (List.nodup_cons.1 hnd).2 ?_]
      · exact sum_map_filter_split (fun a => decide (key a = k)) f l
      · intro a ha
        have ha' := List.mem_filter.1 ha
        have := hmem a ha'.1
        rcases List.mem_cons.1 this with he | hin
        · rw [he] at ha'
          simp at ha'
        · exact hin

/-- C5: for every collection of orders and every grouping period, the
revenue summed over the rows of `get_sales_dynamics` equals the sum of
`order_total` over all input orders. -/
theorem c5_revenue_conservation (orders : List Order) (period : String) :
    ((get_sales_dynamics orders period).map (fun r => r.total_revenue)).sum =
      (orders.map Order.get_total).sum := by
  unfold get_sales_dynamics
  rw [((stableSortByKey_perm (fun r : DynamicsRow => r.period.sortKey) _).map
    (fun r => r.total_revenue)).sum_eq]
  rw [List.map_map]
  exact sum_filter_key_eq (fun o : Order => periodKey period o.order_date)
    Order.get_total _ orders (List.nodup_dedup _)
    (fun a ha => List.mem_dedup.2 (List.mem_map_of_mem _ ha))

/-- C10: any period selector other than `"weekly"` and `"monthly"` is
silently treated as daily grouping: the result is identical to calling with
`"daily"`. -/
theorem c10_unknown_period_is_daily (orders : List Order) (period : String)
    (h1 : period ≠ "weekly") (h2 : period ≠ "monthly") :
    get_sales_dynamics orders period = get_sales_dynamics orders "daily" := by
  have hk : ∀ d : DateTime, periodKey period d = periodKey "daily" d := by
    intro d
    unfold periodKey
    rw [if_neg h1, if_neg h2, if_neg (by decide), if_neg (by decide)]
  unfold get_sales_dynamics
  simp only [hk]

/-- A small concrete order list for the aggregation witnesses. -/
def demoOrders : List Order :=
  [{ demoOrderEmpty with items := [⟨demoProduct, 2, 100⟩] }]

/-- Witness for C10 at the concrete selector `"Daily"` (a capitalized
misspelling) and a concrete order list. -/
theorem c10_unknown_period_is_daily_witness :
    ("Daily" ≠ "weekly" ∧ "Daily" ≠ "monthly") ∧
    get_sales_dynamics demoOrders "Daily" =
      get_sales_dynamics demoOrders "daily" :=
  ⟨⟨by decide, by decide⟩,
    c10_unknown_period_is_daily demoOrders "Daily" (by decide) (by decide)⟩

/-! ## Per-product sales statistics (`DataAnalyzer.get_product_sales_stats`) -/

/-- One row of the per-product statistics. -/
structure ProductStatsRow where
  product_id : Int
  name : String
  category : String
  quantity_sold : Int
  revenue : ℚ
  orders_count : Nat
deriving DecidableEq

/-- Processing one order line into the accumulator dict (`defaultdict` keyed
by `product_id`, insertion-ordered): overwrite name/category, add the line's
quantity and total, bump the line-occurrence count; a missing key starts
from the zero entry. -/
def updateStats : List ProductStatsRow → OrderItem → List ProductStatsRow
  | [], it =>
      [⟨it.product.product_id, it.product.name, it.product.category,
        it.quantity, it.get_total, 1⟩]
  | r :: rs, it =>
      if r.product_id = it.product.product_id then
        { r with
          name := it.product.name
          category := it.product.category
          quantity_sold := r.quantity_sold + it.quantity
          revenue := r.revenue + it.get_total
          orders_count := r.orders_count + 1 } :: rs
      else r :: updateStats rs it

/-- `DataAnalyzer.get_product_sales_stats`: fold every line of every order
into the per-product accumulator, then
`pd.DataFrame(data).sort_values('revenue', ascending=False)`.  There is no
empty guard: with no order lines `data` is `[]`, `pd.DataFrame([])` is a
frame without columns, and `.sort_values('revenue')` raises
`KeyError: 'revenue'` — the error branch here.  Otherwise the frame has the
column and is sorted descending by revenue (among equal revenues pandas
fixes no order, the model uses the stable descending sort). -/
def get_product_sales_stats (orders : List Order) :
    Except String (List ProductStatsRow) :=
  if ((orders.bind fun o => o.items).foldl updateStats []) = [] then
    .error "KeyError: 'revenue'"
  else
    .ok (stableSortByKey (fun r => OrderDual.toDual r.revenue)
      ((orders.bind fun o => o.items).foldl updateStats []))

/-- What one result row must say about the lines stream: aggregates over the
lines carrying its product id, and name/category from the last such line. -/
def RowMatches (ls : List OrderItem) (r : ProductStatsRow) : Prop :=
  r.quantity_sold = ((ls.filter fun x =>
    decide (x.product.product_id = r.product_id)).map OrderItem.quantity).sum ∧
  r.revenue = ((ls.filter fun x =>
    decide (x.product.product_id = r.product_id)).map OrderItem.get_total).sum ∧
  r.orders_count = (ls.filter fun x =>
    decide (x.product.product_id = r.product_id)).length ∧
  ∃ lastIt, (ls.filter fun x =>
      decide (x.product.product_id = r.product_id)).getLast? = some lastIt ∧
    r.name = lastIt.product.name ∧ r.category = lastIt.product.category

/-- Invariant of the accumulator after processing the line stream `ls`. -/
def StatsInv (ls : List OrderItem) (rows : List ProductStatsRow) : Prop :=
  (rows.map fun r => r.product_id).Nodup ∧
  (∀ pid : Int, (pid ∈ rows.map fun r => r.product_id) ↔
    ∃ x ∈ ls, x.product.product_id = pid) ∧
  ∀ r ∈ rows, RowMatches ls r

theorem updateStats_pids (it : OrderItem) :
    ∀ rows : List ProductStatsRow,
      (updateStats rows it).map (fun r => r.product_id) =
        if it.product.product_id ∈ rows.map (fun r => r.product_id) then
          rows.map (fun r => r.product_id)
        else rows.map (fun r => r.product_id) ++ [it.product.product_id] := by
  intro rows
  induction rows with
  | nil => simp [updateStats]
  | cons r rs ih =>
      unfold updateStats
      by_cases hrp : r.product_id = it.product.product_id
      · rw [if_pos hrp]
        simp [hrp]
      · rw [if_neg hrp]
        simp only [List.map_cons, List.mem_cons]
        by_cases hmem : it.product.product_id ∈ rs.map (fun r => r.product_id)
        · rw [ih, if_pos hmem, if_pos (Or.inr hmem)]
        · rw [ih, if_neg hmem,
            if_neg (by
              rintro (he | hm)
              · exact hrp he.symm
              · exact hmem hm)]
          simp

theorem updateStats_mem (it : OrderItem) :
    ∀ rows : List ProductStatsRow,
      ((rows.map fun r => r.product_id).Nodup) →
      ∀ r' ∈ updateStats rows it,
        (r' ∈ rows ∧ r'.product_id ≠ it.product.product_id) ∨
        (∃ r ∈ rows, r.product_id = it.product.product_id ∧
          r' = { r with
            name := it.product.name
            category := it.product.category
            quantity_sold := r.quantity_sold + it.quantity
            revenue := r.revenue + it.get_total
            orders_count := r.orders_count + 1 }) ∨
        ((¬ ∃ r ∈ rows, r.product_id = it.product.product_id) ∧
          r' = ⟨it.product.product_id, it.product.name, it.product.category,
            it.quantity, it.get_total, 1⟩) := by
  intro rows
  induction rows with
  | nil =>
      intro _ r' hr'
      simp only [updateStats, List.mem_singleton] at hr'
      exact Or.inr (Or.inr ⟨by simp, hr'⟩)
  | cons r rs ih =>
      intro hnd r' hr'
      unfold updateStats at hr'
      by_cases hrp : r.product_id = it.product.product_id
      · rw [if_pos hrp] at hr'
        rcases List.mem_cons.1 hr' with he | hin
        · exact Or.inr (Or.inl ⟨r, List.mem_cons_self r rs, hrp, he⟩)
        · refine Or.inl ⟨List.mem_cons_of_mem r hin, ?_⟩
          intro he
          have h1 : r'.product_id ∈ rs.map (fun r => r.product_id) :=
            List.mem_map_of_mem _ hin
          rw [he, ← hrp] at h1
          exact (List.nodup_cons.1 (by simpa using hnd)).1 h1
      · rw [if_neg hrp] at hr'
        rcases List.mem_cons.1 hr' with he | hin
        · subst he
          exact Or.inl ⟨List.mem_cons_self r' rs, fun he => hrp he⟩
        · rcases ih (List.nodup_cons.1 (by simpa using hnd)).2 r' hin with
            ⟨h1, h2⟩ | ⟨r₀, hr₀, h1, h2⟩ | ⟨h1, h2⟩
          · exact Or.inl ⟨List.mem_cons_of_mem r h1, h2⟩
          · exact Or.inr (Or.inl ⟨r₀, List.mem_cons_of_mem r hr₀, h1, h2⟩)
          · refine Or.inr (Or.inr ⟨?_, h2⟩)
            rintro ⟨r₀, hr₀, he₀⟩
            rcases List.mem_cons.1 hr₀ with he₁ | hin₁
            · rw [he₁] at he₀
              exact hrp he₀
            · exact h1 ⟨r₀, hin₁, he₀⟩

theorem statsInv_step (ls : List OrderItem) (rows : List ProductStatsRow)
    (it : OrderItem) (h : StatsInv ls rows) :
    StatsInv (ls ++ [it]) (updateStats rows it) := by
  obtain ⟨hnd, hiff, hrows⟩ := h
  refine ⟨?_, ?_, ?_⟩
  · rw [updateStats_pids]
    by_cases hmem : it.product.product_id ∈ rows.map (fun r => r.product_id)
    · rw [if_pos hmem]; exact hnd
    · rw [if_neg hmem, List.nodup_append]
      refine ⟨hnd, List.nodup_singleton _, ?_⟩
      intro a ha hb
      rw [List.mem_singleton.1 hb] at ha
      exact hmem ha
  · intro pid'
    rw [updateStats_pids]
    by_cases hmem : it.product.product_id ∈ rows.map (fun r => r.product_id)
    · rw [if_pos hmem, hiff pid']
      constructor
      · rintro ⟨x, hx, he⟩
        exact ⟨x, List.mem_append.2 (Or.inl hx), he⟩
      · rintro ⟨x, hx, he⟩
        rcases List.mem_append.1 hx with h1 | h1
        · exact ⟨x, h1, he⟩
        · rw [List.mem_singleton.1 h1] at he
          rw [← he]
          exact (hiff it.product.product_id).1 hmem
    · rw [if_neg hmem]
      constructor
      · intro hp
        rcases List.mem_append.1 hp with h1 | h1
        · obtain ⟨x, hx, he⟩ := (hiff pid').1 h1
          exact ⟨x, List.mem_append.2 (Or.inl hx), he⟩
        · rw [List.mem_singleton.1 h1]
          exact ⟨it, List.mem_append.2 (Or.inr (by simp)), rfl⟩
      · rintro ⟨x, hx, he⟩
        rcases List.mem_append.1 hx with h1 | h1
        · exact List.mem_append.2 (Or.inl ((hiff pid').2 ⟨x, h1, he⟩))
        · rw [List.mem_singleton.1 h1] at he
          exact List.mem_append.2 (Or.inr (by simp [he]))
  · intro r' hr'
    rcases updateStats_mem it rows hnd r' hr' with
      ⟨hmem, hne⟩ | ⟨r, hr, hrp, he⟩ | ⟨hno, he⟩
    · have hm := hrows r' hmem
      have hx : ¬ (it.product.product_id = r'.product_id) := fun hh => hne hh.symm
      have hfe : ((ls ++ [it]).filter fun x =>
          decide (x.product.product_id = r'.product_id)) =
          ls.filter fun x => decide (x.product.product_id = r'.product_id) := by
        rw [List.filter_append, List.filter_cons_of_neg (by simpa using hx)]
        simp
      unfold RowMatches at hm ⊢
      rw [hfe]
      exact hm
    · have hm := hrows r hr
      subst he
      unfold RowMatches at hm ⊢
      simp only at hm ⊢
      have hfe : ((ls ++ [it]).filter fun x =>
          decide (x.product.product_id = r.product_id)) =
          (ls.filter fun x => decide (x.product.product_id = r.product_id))
            ++ [it] := by
        rw [List.filter_append, List.filter_cons_of_pos (by simp [hrp])]
        rfl
      rw [hfe]
      obtain ⟨h1, h2, h3, _, _, _⟩ := hm
      refine ⟨?_, ?_, ?_, it, ?_, rfl, rfl⟩
      · rw [List.map_append, List.sum_append, ← h1]
        simp
      · rw [List.map_append, List.sum_append, ← h2]
        simp
      · rw [List.length_append, ← h3]
        simp
      · rw [List.getLast?_concat]
    · have hempty : (ls.filter fun x =>
          decide (x.product.product_id = it.product.product_id)) = [] := by
        rw [List.filter_eq_nil_iff]
        intro x hx
        simp only [decide_eq_true_eq]
        intro hxe
        have : it.product.product_id ∈ rows.map (fun r => r.product_id) :=
          (hiff it.product.product_id).2 ⟨x, hx, hxe⟩
        obtain ⟨r₀, hr₀, he₀⟩ := List.mem_map.1 this
        exact hno ⟨r₀, hr₀, he₀⟩
      subst he
      unfold RowMatches
      simp only
      have hfe : ((ls ++ [it]).filter fun x =>
          decide (x.product.product_id = it.product.product_id)) = [it] := by
        rw [List.filter_append, List.filter_cons_of_pos (by simp), hempty]
        simp
      rw [hfe]
      exact ⟨by simp, by simp, by simp, it, by simp, rfl, rfl⟩

theorem statsInv_foldl (ls : List OrderItem) :
    StatsInv ls (ls.foldl updateStats []) := by
  induction ls using List.reverseRecOn with
  | nil =>
      refine ⟨by simp, ?_, by simp⟩
      intro pid
      simp
  | append_singleton ls it ih =>
      rw [List.foldl_append]
      exact statsInv_step ls _ it ih

/-- C6: on a collection with no order lines, `get_product_sales_stats` does
not return the (empty) table the claim describes but raises
`KeyError: 'revenue'` (no empty guard before `sort_values`); on every other
collection it yields exactly one row per product id occurring in any order
line, where each row's `quantity_sold`, `revenue` and `orders_count` are
the sum of that product's line quantities, the sum of its line totals, and
its number of line occurrences, its name and category are those of the last
observed line, and the rows are sorted descending by revenue. -/
theorem c6_product_sales_stats :
    (∀ orders : List Order, orders.bind (fun o => o.items) = [] →
      get_product_sales_stats orders = .error "KeyError: 'revenue'") ∧
    (∀ (orders : List Order) (rows : List ProductStatsRow),
      get_product_sales_stats orders = .ok rows →
      (rows.map fun r => r.product_id).Nodup ∧
      (∀ pid : Int,
        (pid ∈ rows.map fun r => r.product_id) ↔
        ∃ x ∈ orders.bind (fun o => o.items), x.product.product_id = pid) ∧
      (∀ r ∈ rows, RowMatches (orders.bind fun o => o.items) r) ∧
      rows.Pairwise (fun a b => b.revenue ≤ a.revenue)) := by
  constructor
  · intro orders h
    unfold get_product_sales_stats
    rw [h]
    rfl
  · intro orders rows h
    unfold get_product_sales_stats at h
    by_cases hd : ((orders.bind fun o => o.items).foldl updateStats []) = []
    · rw [if_pos hd] at h
      cases h
    · rw [if_neg hd] at h
      have hrows : rows = stableSortByKey
          (fun r => OrderDual.toDual r.revenue)
          ((orders.bind fun o => o.items).foldl updateStats []) :=
        (Except.ok.inj h).symm
      subst hrows
      have hinv := statsInv_foldl (orders.bind fun o => o.items)
      obtain ⟨hnd, hiff, hmatch⟩ := hinv
      have hperm := stableSortByKey_perm
        (fun r : ProductStatsRow => OrderDual.toDual r.revenue)
        ((orders.bind fun o => o.items).foldl updateStats [])
      refine ⟨?_, ?_, ?_, ?_⟩
      · exact (List.Perm.nodup_iff (hperm.map (fun r => r.product_id))).2 hnd
      · intro pid
        rw [(hperm.map (fun r => r.product_id)).mem_iff]
        exact hiff pid
      · intro r hr
        exact hmatch r (hperm.mem_iff.1 hr)
      · exact stableSortByKey_sorted
          (fun r : ProductStatsRow => OrderDual.toDual r.revenue) _

/-! ## Relationship graphs (`NetworkAnalyzer`)

Graphs are modelled as an explicit node list plus an edge list whose keys
are unordered endpoint pairs (`networkx` edges are undirected: lookups and
updates match `(a, b)` in either orientation). -/

/-- Unordered comparison of the endpoint pair `(x, y)` with `{a, b}`. -/
def samePair (a b x y : Int) : Bool :=
  (decide (x = a) && decide (y = b)) || (decide (x = b) && decide (y = a))

/-- Whether an edge joins `a` and `b` (either orientation). -/
def isPair {β : Type} (a b : Int) (e : (Int × Int) × β) : Bool :=
  samePair a b e.1.1 e.1.2

/-- The payload of the edge joining `a` and `b`, if present. -/
def edgeLookup {β : Type} (a b : Int) : List ((Int × Int) × β) → Option β
  | [] => none
  | e :: rest => if isPair a b e then some e.2 else edgeLookup a b rest

/-- `G[c1][c2]['weight'] += 1` / `G.add_edge(c1, c2, weight=1)`. -/
def incEdge (a b : Int) : List ((Int × Int) × Nat) → List ((Int × Int) × Nat)
  | [] => [((a, b), 1)]
  | e :: rest =>
      if isPair a b e then (e.1, e.2 + 1) :: rest
      else e :: incEdge a b rest

/-- All pairs `(cs[i], cs[j])` with `i < j`, in loop order. -/
def allPairs : List Int → List (Int × Int)
  | [] => []
  | c :: cs => cs.map (fun c2 => (c, c2)) ++ allPairs cs

/-- `if customer_id not in product_customers[product_id]: append`. -/
def addOnce (cid : Int) (cs : List Int) : List Int :=
  if cid ∈ cs then cs else cs ++ [cid]

/-- One purchase record into the `defaultdict(list)` keyed by product id. -/
def pcInsert (cid pid : Int) : List (Int × List Int) → List (Int × List Int)
  | [] => [(pid, [cid])]
  | e :: rest =>
      if e.1 = pid then (e.1, addOnce cid e.2) :: rest
      else e :: pcInsert cid pid rest

/-- The product → distinct purchasers map built by the first loop of
`build_customer_product_graph`. -/
def product_customers (orders : List Order) : List (Int × List Int) :=
  orders.foldl (fun m o =>
    o.items.foldl (fun m' itm =>
      pcInsert o.customer.customer_id itm.product.product_id m') m) []

/-- A weighted undirected customer graph. -/
structure WeightedGraph where
  nodes : List (Int × String × String)
  edges : List ((Int × Int) × Nat)

/-- `NetworkAnalyzer.build_customer_product_graph`: nodes for the customers
passed in (attributed with name and city), and for every product's distinct
purchaser list an edge-weight increment for every unordered purchaser
pair. -/
def build_customer_product_graph (customers : List Customer)
    (orders : List Order) : WeightedGraph :=
  { nodes := customers.map (fun c => (c.customer_id, c.name, c.city))
    edges := (product_customers orders).foldl (fun es e =>
      (allPairs e.2).foldl (fun es' pr => incEdge pr.1 pr.2 es') es) [] }

/-- The flattened stream of `(customer_id, product_id)` purchase records in
iteration order. -/
def purchases (orders : List Order) : List (Int × Int) :=
  orders.bind (fun o =>
    o.items.map (fun itm => (o.customer.customer_id, itm.product.product_id)))

/-- Customer `c` has purchased product `p` in some order. -/
def bought (orders : List Order) (c p : Int) : Prop :=
  ∃ o ∈ orders, o.customer.customer_id = c ∧
    ∃ itm ∈ o.items, itm.product.product_id = p

theorem mem_purchases {orders : List Order} {c p : Int} :
    (c, p) ∈ purchases orders ↔ bought orders c p := by
  unfold purchases bought
  rw [List.mem_bind]
  constructor
  · rintro ⟨o, ho, hm⟩
    obtain ⟨itm, hitm, he⟩ := List.mem_map.1 hm
    obtain ⟨h1, h2⟩ := Prod.mk.injEq _ _ _ _ ▸ he
    exact ⟨o, ho, h1, itm, hitm, h2⟩
  · rintro ⟨o, ho, h1, itm, hitm, h2⟩
    exact ⟨o, ho, List.mem_map.2 ⟨itm, hitm, by rw [h1, h2]⟩⟩

/-- Invariant of the product → purchasers map over the processed purchase
stream. -/
def PCInv (ps : List (Int × Int)) (m : List (Int × List Int)) : Prop :=
  (m.map Prod.fst).Nodup ∧
  (∀ pid : Int, (pid ∈ m.map Prod.fst) ↔ ∃ pr ∈ ps, pr.2 = pid) ∧
  (∀ e ∈ m, e.2.Nodup ∧ ∀ cid : Int, (cid ∈ e.2 ↔ (cid, e.1) ∈ ps))

theorem mem_addOnce {cid x : Int} {cs : List Int} :
    x ∈ addOnce cid cs ↔ x ∈ cs ∨ x = cid := by
  unfold addOnce
  by_cases h : cid ∈ cs
  · rw [if_pos h]
    constructor
    · exact Or.inl
    · rintro (hx | hx)
      · exact hx
      · rw [hx]; exact h
  · rw [if_neg h]
    simp

theorem nodup_addOnce {cid : Int} {cs : List Int} (h : cs.Nodup) :
    (addOnce cid cs).Nodup := by
  unfold addOnce
  by_cases hm : cid ∈ cs
  · rw [if_pos hm]; exact h
  · rw [if_neg hm, List.nodup_append]
    exact ⟨h, List.nodup_singleton _, by
      intro a ha hb
      rw [List.mem_singleton.1 hb] at ha
      exact hm ha⟩

theorem pcInsert_keys (cid pid : Int) :
    ∀ m : List (Int × List Int),
      (pcInsert cid pid m).map Prod.fst =
        if pid ∈ m.map Prod.fst then m.map Prod.fst
        else m.map Prod.fst ++ [pid] := by
  intro m
  induction m with
  | nil => simp [pcInsert]
  | cons e rest ih =>
      unfold pcInsert
      by_cases he : e.1 = pid
      · rw [if_pos he]
        simp [he]
      · rw [if_neg he]
        simp only [List.map_cons, List.mem_cons]
        by_cases hmem : pid ∈ rest.map Prod.fst
        · rw [ih, if_pos hmem, if_pos (Or.inr hmem)]
        · rw [ih, if_neg hmem,
            if_neg (by
              rintro (h1 | h1)
              · exact he h1.symm
              · exact hmem h1)]
          simp

theorem pcInsert_mem (cid pid : Int) :
    ∀ m : List (Int × List Int), ((m.map Prod.fst).Nodup) →
      ∀ e' ∈ pcInsert cid pid m,
        (e' ∈ m ∧ e'.1 ≠ pid) ∨
        (∃ cs, (pid, cs) ∈ m ∧ e' = (pid, addOnce cid cs)) ∨
        ((pid ∉ m.map Prod.fst) ∧ e' = (pid, [cid])) := by
  intro m
  induction m with
  | nil =>
      intro _ e' he'
      simp only [pcInsert, List.mem_singleton] at he'
      exact Or.inr (Or.inr ⟨by simp, he'⟩)
  | cons e rest ih =>
      intro hnd e' he'
      unfold pcInsert at he'
      by_cases he : e.1 = pid
      · rw [if_pos he] at he'
        rcases List.mem_cons.1 he' with h1 | h1
        · refine Or.inr (Or.inl ⟨e.2, ?_, ?_⟩)
          · rw [← he]
            exact List.mem_cons_self _ _
          · rw [h1, he]
        · refine Or.inl ⟨List.mem_cons_of_mem e h1, ?_⟩
          intro hp
          have hmem : e'.1 ∈ rest.map Prod.fst := List.mem_map_of_mem _ h1
          rw [hp, ← he] at hmem
          exact (List.nodup_cons.1 (by simpa using hnd)).1 hmem
      · rw [if_neg he] at he'
        rcases List.mem_cons.1 he' with h1 | h1
        · rw [h1]
          exact Or.inl ⟨List.mem_cons_self e rest, he⟩
        · rcases ih (List.nodup_cons.1 (by simpa using hnd)).2 e' h1 with
            ⟨h2, h3⟩ | ⟨cs, h2, h3⟩ | ⟨h2, h3⟩
          · exact Or.inl ⟨List.mem_cons_of_mem e h2, h3⟩
          · exact Or.inr (Or.inl ⟨cs, List.mem_cons_of_mem e h2, h3⟩)
          · refine Or.inr (Or.inr ⟨?_, h3⟩)
            simp only [List.map_cons, List.mem_cons]
            rintro (h4 | h4)
            · exact he h4.symm
            · exact h2 h4

theorem pcInv_step (ps : List (Int × Int)) (m : List (Int × List Int))
    (cid pid : Int) (h : PCInv ps m) :
    PCInv (ps ++ [(cid, pid)]) (pcInsert cid pid m) := by
  obtain ⟨hnd, hiff, hent⟩ := h
  refine ⟨?_, ?_, ?_⟩
  · rw [pcInsert_keys]
    by_cases hmem : pid ∈ m.map Prod.fst
    · rw [if_pos hmem]; exact hnd
    · rw [if_neg hmem, List.nodup_append]
      exact ⟨hnd, List.nodup_singleton _, by
        intro a ha hb
        rw [List.mem_singleton.1 hb] at ha
        exact hmem ha⟩
  · intro pid'
    rw [pcInsert_keys]
    by_cases hmem : pid ∈ m.map Prod.fst
    · rw [if_pos hmem, hiff pid']
      constructor
      · rintro ⟨pr, hpr, he⟩
        exact ⟨pr, List.mem_append.2 (Or.inl hpr), he⟩
      · rintro ⟨pr, hpr, he⟩
        rcases List.mem_append.1 hpr with h1 | h1
        · exact ⟨pr, h1, he⟩
        · rw [List.mem_singleton.1 h1] at he
          simp only at he
          rw [← he]
          exact (hiff pid).1 hmem
    · rw [if_neg hmem]
      constructor
      · intro hp
        rcases List.mem_append.1 hp with h1 | h1
        · obtain ⟨pr, hpr, he⟩ := (hiff pid').1 h1
          exact ⟨pr, List.mem_append.2 (Or.inl hpr), he⟩
        · rw [List.mem_singleton.1 h1]
          exact ⟨(cid, pid), List.mem_append.2 (Or.inr (by simp)), rfl⟩
      · rintro ⟨pr, hpr, he⟩
        rcases List.mem_append.1 hpr with h1 | h1
        · exact List.mem_append.2 (Or.inl ((hiff pid').2 ⟨pr, h1, he⟩))
        · rw [List.mem_singleton.1 h1] at he
          simp only at he
          exact List.mem_append.2 (Or.inr (by simp [he]))
  · intro e' he'
    rcases pcInsert_mem cid pid m hnd e' he' with
      ⟨hmem, hne⟩ | ⟨cs, hcs, he⟩ | ⟨hno, he⟩
    · obtain ⟨hnd₂, hiff₂⟩ := hent e' hmem
      refine ⟨hnd₂, ?_⟩
      intro cid'
      rw [hiff₂ cid', List.mem_append]
      constructor
      · exact Or.inl
      · rintro (h1 | h1)
        · exact h1
        · obtain ⟨h2, h3⟩ := Prod.mk.injEq _ _ _ _ ▸ List.mem_singleton.1 h1
          exact absurd h3 hne
    · obtain ⟨hnd₂, hiff₂⟩ := hent (pid, cs) hcs
      rw [he]
      refine ⟨nodup_addOnce hnd₂, ?_⟩
      intro cid'
      simp only
      rw [mem_addOnce, hiff₂ cid', List.mem_append]
      constructor
      · rintro (h1 | h1)
        · exact Or.inl h1
        · exact Or.inr (by simp [h1])
      · rintro (h1 | h1)
        · exact Or.inl h1
        · obtain ⟨h2, _⟩ := Prod.mk.injEq _ _ _ _ ▸ List.mem_singleton.1 h1
          exact Or.inr h2
    · rw [he]
      refine ⟨List.nodup_singleton _, ?_⟩
      intro cid'
      simp only
      constructor
      · intro h1
        rw [List.mem_singleton.1 h1]
        exact List.mem_append.2 (Or.inr (by simp))
      · intro h1
        rcases List.mem_append.1 h1 with h2 | h2
        · exact absurd ((hiff pid).2 ⟨(cid', pid), h2, rfl⟩) hno
        · obtain ⟨h3, _⟩ := Prod.mk.injEq _ _ _ _ ▸ List.mem_singleton.1 h2
          simp [h3]

theorem foldl_bind {α β γ : Type} (f : α → List β) (g : γ → β → γ) :
    ∀ (l : List α) (i : γ),
      (l.bind f).foldl g i = l.foldl (fun acc a => (f a).foldl g acc) i := by
  intro l
  induction l with
  | nil => intro i; rfl
  | cons a as ih =>
      intro i
      have hb : (a :: as).bind f = f a ++ as.bind f := rfl
      rw [hb, List.foldl_append, List.foldl_cons, ih]

theorem product_customers_eq_fold (orders : List Order) :
    product_customers orders =
      (purchases orders).foldl (fun m pr => pcInsert pr.1 pr.2 m) [] := by
  unfold product_customers purchases
  rw [foldl_bind]
  have hfun : (fun (m : List (Int × List Int)) (o : Order) =>
      o.items.foldl (fun m' itm =>
        pcInsert o.customer.customer_id itm.product.product_id m') m) =
      (fun (m : List (Int × List Int)) (o : Order) =>
        ((o.items.map fun itm =>
          (o.customer.customer_id, itm.product.product_id)).foldl
            (fun m' pr => pcInsert pr.1 pr.2 m') m)) := by
    funext m o
    rw [List.foldl_map]
  rw [hfun]

theorem pcInv_product_customers (orders : List Order) :
    PCInv (purchases orders) (product_customers orders) := by
  rw [product_customers_eq_fold]
  have haux : ∀ ps : List (Int × Int),
      PCInv ps (ps.foldl (fun m pr => pcInsert pr.1 pr.2 m) []) := by
    intro ps
    induction ps using List.reverseRecOn with
    | nil =>
        refine ⟨by simp, ?_, by simp⟩
        intro pid
        simp
    | append_singleton ps pr ih =>
        rw [List.foldl_append]
        simpa using pcInv_step ps _ pr.1 pr.2 ih
  exact haux (purchases orders)

theorem samePair_true_iff {a b x y : Int} :
    samePair a b x y = true ↔ (x = a ∧ y = b) ∨ (x = b ∧ y = a) := by
  unfold samePair
  simp

theorem isPair_swap {β : Type} (a b : Int) (e : (Int × Int) × β) :
    isPair a b e = isPair b a e := by
  unfold isPair samePair
  rw [Bool.or_comm]

theorem isPair_congr {β : Type} {a b x y : Int}
    (h : samePair a b x y = true) (e : (Int × Int) × β) :
    isPair a b e = isPair x y e := by
  rcases samePair_true_iff.1 h with ⟨h1, h2⟩ | ⟨h1, h2⟩
  · rw [h1, h2]
  · rw [h1, h2]
    exact isPair_swap a b e

theorem isPair_payload {β : Type} (a b : Int) (e : (Int × Int) × β) (w : β) :
    isPair a b (e.1, w) = isPair a b e := rfl

theorem edgeLookup_swap {β : Type} (a b : Int) :
    ∀ es : List ((Int × Int) × β), edgeLookup a b es = edgeLookup b a es := by
  intro es
  induction es with
  | nil => rfl
  | cons e rest ih =>
      unfold edgeLookup
      rw [isPair_swap a b e, ih]

theorem bool_eq_false {c : Bool} (h : ¬ c = true) : c = false := by
  cases c
  · rfl
  · exact absurd rfl h

theorem edgeLookup_incEdge {a b x y : Int} :
    ∀ es : List ((Int × Int) × Nat),
      edgeLookup a b (incEdge x y es) =
        if samePair a b x y then some ((edgeLookup a b es).getD 0 + 1)
        else edgeLookup a b es := by
  intro es
  induction es with
  | nil =>
      by_cases h : samePair a b x y = true
      · have hip : isPair a b (((x, y), 1) : (Int × Int) × Nat) = true := h
        simp [incEdge, edgeLookup, h, hip]
      · have h' : samePair a b x y = false := bool_eq_false h
        have hip : isPair a b (((x, y), 1) : (Int × Int) × Nat) = false := h'
        simp [incEdge, edgeLookup, h', hip]
  | cons e rest ih =>
      by_cases hp : isPair x y e = true
      · by_cases hq : isPair a b e = true
        · have hsp : samePair a b x y = true := by
            apply samePair_true_iff.2
            rcases samePair_true_iff.1 hp with h12 | h12 <;>
              rcases samePair_true_iff.1 hq with h34 | h34
            · exact Or.inl ⟨h12.1.symm.trans h34.1, h12.2.symm.trans h34.2⟩
            · exact Or.inr ⟨h12.1.symm.trans h34.1, h12.2.symm.trans h34.2⟩
            · exact Or.inr ⟨h12.2.symm.trans h34.2, h12.1.symm.trans h34.1⟩
            · exact Or.inl ⟨h12.2.symm.trans h34.2, h12.1.symm.trans h34.1⟩
          have hpe : isPair a b (e.1, e.2 + 1) = true := hq
          simp [incEdge, hp, edgeLookup, hpe, hq, hsp]
        · have hq' : isPair a b e = false := bool_eq_false hq
          have hsp : samePair a b x y = false := by
            cases ht : samePair a b x y
            · rfl
            · exact absurd ((isPair_congr ht e).symm.trans hq') (by simp [hp])
          have hpe : isPair a b (e.1, e.2 + 1) = false := hq'
          simp [incEdge, hp, edgeLookup, hpe, hq', hsp]
      · have hp' : isPair x y e = false := bool_eq_false hp
        by_cases hq : isPair a b e = true
        · have hsp : samePair a b x y = false := by
            cases ht : samePair a b x y
            · rfl
            · exact absurd ((isPair_congr ht e).symm.trans hq) (by simp [hp'])
          simp [incEdge, hp', edgeLookup, hq, hsp]
        · have hq' : isPair a b e = false := bool_eq_false hq
          simp [incEdge, hp', edgeLookup, hq', ih]

/-- Adding `n` shared products to an optional edge weight. -/
def optAdd : Option Nat → Nat → Option Nat
  | none, 0 => none
  | none, Nat.succ n => some (n + 1)
  | some w, n => some (w + n)

theorem optAdd_zero (w : Option Nat) : optAdd w 0 = w := by
  cases w <;> rfl

theorem optAdd_assoc (w : Option Nat) (m n : Nat) :
    optAdd (optAdd w m) n = optAdd w (m + n) := by
  cases w with
  | none =>
      cases m with
      | zero => simp [optAdd]
      | succ m =>
          cases n with
          | zero => simp [optAdd]
          | succ n => simp [optAdd]; omega
  | some w =>
      cases n with
      | zero => simp [optAdd]
      | succ n => simp [optAdd]; omega

theorem optAdd_none (n : Nat) :
    optAdd none n = if n = 0 then none else some n := by
  cases n with
  | zero => rfl
  | succ n => simp [optAdd]

theorem edgeLookup_foldl_incEdge {a b : Int} :
    ∀ (qs : List (Int × Int)) (es : List ((Int × Int) × Nat)),
      edgeLookup a b (qs.foldl (fun es' pr => incEdge pr.1 pr.2 es') es) =
        optAdd (edgeLookup a b es)
          (qs.countP (fun pr => samePair a b pr.1 pr.2)) := by
  intro qs
  induction qs with
  | nil =>
      intro es
      rw [List.foldl_nil, List.countP_nil, optAdd_zero]
  | cons pr qs' ih =>
      intro es
      rw [List.foldl_cons, ih, edgeLookup_incEdge, List.countP_cons]
      by_cases hsp : samePair a b pr.1 pr.2 = true
      · rw [if_pos hsp, hsp]
        simp only [if_pos rfl]
        cases hw : edgeLookup a b es with
        | none => simp [optAdd]; omega
        | some w => simp [optAdd]; omega
      · have hsp' : samePair a b pr.1 pr.2 = false := by
          cases ht : samePair a b pr.1 pr.2
          · rfl
          · exact absurd ht hsp
        rw [if_neg (by simp [hsp']), hsp']
        simp

theorem countP_eq_single_of_nodup {l : List Int} (h : l.Nodup) (v : Int) :
    l.countP (fun x => decide (x = v)) = if v ∈ l then 1 else 0 := by
  induction l with
  | nil => simp
  | cons x xs ih =>
      rw [List.countP_cons]
      rcases List.nodup_cons.1 h with ⟨hx, hxs⟩
      rw [ih hxs]
      by_cases hxv : x = v
      · subst hxv
        rw [if_pos (show decide (x = x) = true by simp), if_neg hx,
          if_pos (List.mem_cons_self x xs)]
      · rw [if_neg (show ¬ decide (x = v) = true by simp [hxv])]
        by_cases hv : v ∈ xs
        · rw [if_pos hv, if_pos (List.mem_cons_of_mem x hv)]
        · rw [if_neg hv, if_neg (by
            intro hmem
            rcases List.mem_cons.1 hmem with h1 | h1
            · exact hxv h1.symm
            · exact hv h1)]

theorem countP_allPairs {a b : Int} (hab : a ≠ b) :
    ∀ cs : List Int, cs.Nodup →
      (allPairs cs).countP (fun pr => samePair a b pr.1 pr.2) =
        if a ∈ cs ∧ b ∈ cs then 1 else 0 := by
  intro cs
  induction cs with
  | nil => simp [allPairs]
  | cons c cs' ih =>
      intro hnd
      unfold allPairs
      rw [List.countP_append, List.countP_map, ih (List.nodup_cons.1 hnd).2]
      have hcn : c ∉ cs' := (List.nodup_cons.1 hnd).1
      by_cases hca : c = a
      · subst hca
        have hcb : ¬ (c = b) := hab
        have hmap : cs'.countP
            ((fun pr => samePair c b pr.1 pr.2) ∘ fun c2 => (c, c2)) =
            cs'.countP (fun x => decide (x = b)) := by
          apply List.countP_congr
          intro c2 _
          simp [Function.comp, samePair, hcb]
        rw [hmap, countP_eq_single_of_nodup (List.nodup_cons.1 hnd).2 b]
        have hna : ¬ (c ∈ cs' ∧ b ∈ cs') := fun hr => hcn hr.1
        rw [if_neg hna]
        by_cases hb : b ∈ cs'
        · rw [if_pos hb, if_pos ⟨List.mem_cons_self c cs',
            List.mem_cons_of_mem c hb⟩]
        · rw [if_neg hb, if_neg (by
            rintro ⟨_, hmem⟩
            rcases List.mem_cons.1 hmem with h1 | h1
            · exact hcb h1.symm
            · exact hb h1)]
      · by_cases hcb : c = b
        · subst hcb
          have hca' : ¬ (c = a) := hca
          have hmap : cs'.countP
              ((fun pr => samePair a c pr.1 pr.2) ∘ fun c2 => (c, c2)) =
              cs'.countP (fun x => decide (x = a)) := by
            apply List.countP_congr
            intro c2 _
            simp [Function.comp, samePair, hca']
          rw [hmap, countP_eq_single_of_nodup (List.nodup_cons.1 hnd).2 a]
          have hna : ¬ (a ∈ cs' ∧ c ∈ cs') := fun hr => hcn hr.2
          rw [if_neg hna]
          by_cases hb : a ∈ cs'
          · rw [if_pos hb, if_pos ⟨List.mem_cons_of_mem c hb,
              List.mem_cons_self c cs'⟩]
          · rw [if_neg hb, if_neg (by
              rintro ⟨hmem, _⟩
              rcases List.mem_cons.1 hmem with h1 | h1
              · exact hca h1.symm
              · exact hb h1)]
        · have hmap : cs'.countP
              ((fun pr => samePair a b pr.1 pr.2) ∘ fun c2 => (c, c2)) = 0 := by
            rw [List.countP_eq_zero]
            intro c2 _
            simp [Function.comp, samePair, hca, hcb]
          rw [hmap]
          by_cases hin : a ∈ cs' ∧ b ∈ cs'
          · rw [if_pos hin, if_pos ⟨List.mem_cons_of_mem c hin.1,
              List.mem_cons_of_mem c hin.2⟩]
          · rw [if_neg hin, if_neg (by
              rintro ⟨h1, h2⟩
              rcases List.mem_cons.1 h1 with h3 | h3
              · exact hca h3.symm
              · rcases List.mem_cons.1 h2 with h4 | h4
                · exact hcb h4.symm
                · exact hin ⟨h3, h4⟩)]

theorem edgeLookup_product_fold {a b : Int} (hab : a ≠ b) :
    ∀ (todo : List (Int × List Int)) (es : List ((Int × Int) × Nat)),
      (∀ e ∈ todo, e.2.Nodup) →
      edgeLookup a b (todo.foldl (fun es' e =>
          (allPairs e.2).foldl (fun es'' pr => incEdge pr.1 pr.2 es'') es') es) =
        optAdd (edgeLookup a b es)
          (todo.countP (fun e => decide (a ∈ e.2) && decide (b ∈ e.2))) := by
  intro todo
  induction todo with
  | nil =>
      intro es _
      rw [List.foldl_nil, List.countP_nil, optAdd_zero]
  | cons e todo' ih =>
      intro es hnd
      rw [List.foldl_cons, ih _ (fun x hx => hnd x (List.mem_cons_of_mem e hx)),
        edgeLookup_foldl_incEdge, List.countP_cons,
        countP_allPairs hab e.2 (hnd e (List.mem_cons_self e todo')),
        optAdd_assoc]
      congr 1
      by_cases hin : a ∈ e.2 ∧ b ∈ e.2
      · rw [if_pos hin, if_pos (by simp [hin.1, hin.2])]
        omega
      · rw [if_neg hin, if_neg (by
          intro hc
          simp only [Bool.and_eq_true, decide_eq_true_eq] at hc
          exact hin hc)]
        omega

theorem mem_incEdge {x y : Int} :
    ∀ (es : List ((Int × Int) × Nat)), ∀ e' ∈ incEdge x y es,
      (∃ e₀ ∈ es, e'.1 = e₀.1) ∨ e'.1 = (x, y) := by
  intro es
  induction es with
  | nil =>
      intro e' he'
      have he : e' = ((x, y), 1) := by simpa [incEdge] using he'
      rw [he]
      exact Or.inr rfl
  | cons e rest ih =>
      intro e' he'
      unfold incEdge at he'
      by_cases hp : isPair x y e = true
      · rw [if_pos hp] at he'
        rcases List.mem_cons.1 he' with h1 | h1
        · exact Or.inl ⟨e, List.mem_cons_self e rest, by rw [h1]⟩
        · exact Or.inl ⟨e', List.mem_cons_of_mem e h1, rfl⟩
      · rw [if_neg hp] at he'
        rcases List.mem_cons.1 he' with h1 | h1
        · exact Or.inl ⟨e, List.mem_cons_self e rest, by rw [h1]⟩
        · rcases ih e' h1 with ⟨e₀, he₀, hq⟩ | hq
          · exact Or.inl ⟨e₀, List.mem_cons_of_mem e he₀, hq⟩
          · exact Or.inr hq

theorem mem_foldl_incEdge :
    ∀ (qs : List (Int × Int)) (es : List ((Int × Int) × Nat)),
      ∀ e' ∈ qs.foldl (fun es' pr => incEdge pr.1 pr.2 es') es,
        (∃ e₀ ∈ es, e'.1 = e₀.1) ∨ ∃ pr ∈ qs, e'.1 = pr := by
  intro qs
  induction qs with
  | nil =>
      intro es e' he'
      exact Or.inl ⟨e', he', rfl⟩
  | cons pr qs' ih =>
      intro es e' he'
      rw [List.foldl_cons] at he'
      rcases ih _ e' he' with ⟨e₀, he₀, hq⟩ | ⟨pr', hpr', hq⟩
      · rcases mem_incEdge es e₀ he₀ with ⟨e₁, he₁, hq₁⟩ | hq₁
        · exact Or.inl ⟨e₁, he₁, hq.trans hq₁⟩
        · exact Or.inr ⟨pr, List.mem_cons_self pr qs', by
            rw [hq, hq₁]⟩
      · exact Or.inr ⟨pr', List.mem_cons_of_mem pr hpr', hq⟩

theorem mem_allPairs :
    ∀ (cs : List Int) (pr : Int × Int), pr ∈ allPairs cs →
      pr.1 ∈ cs ∧ pr.2 ∈ cs := by
  intro cs
  induction cs with
  | nil => intro pr hpr; simp [allPairs] at hpr
  | cons c cs' ih =>
      intro pr hpr
      unfold allPairs at hpr
      rcases List.mem_append.1 hpr with h1 | h1
      · obtain ⟨c2, hc2, he⟩ := List.mem_map.1 h1
        rw [← he]
        exact ⟨List.mem_cons_self c cs', List.mem_cons_of_mem c hc2⟩
      · obtain ⟨h2, h3⟩ := ih pr h1
        exact ⟨List.mem_cons_of_mem c h2, List.mem_cons_of_mem c h3⟩

theorem mem_graph_edges_endpoints (customers : List Customer)
    (orders : List Order) :
    ∀ e ∈ (build_customer_product_graph customers orders).edges,
      ∃ en ∈ product_customers orders, e.1.1 ∈ en.2 ∧ e.1.2 ∈ en.2 := by
  intro e he
  unfold build_customer_product_graph at he
  simp only at he
  have haux : ∀ (todo : List (Int × List Int)) (es : List ((Int × Int) × Nat)),
      ∀ e' ∈ todo.foldl (fun es' en =>
        (allPairs en.2).foldl (fun es'' pr => incEdge pr.1 pr.2 es'') es') es,
        (∃ e₀ ∈ es, e'.1 = e₀.1) ∨
          ∃ en ∈ todo, e'.1.1 ∈ en.2 ∧ e'.1.2 ∈ en.2 := by
    intro todo
    induction todo with
    | nil => intro es e' he'; exact Or.inl ⟨e', he', rfl⟩
    | cons en todo' ih =>
        intro es e' he'
        rw [List.foldl_cons] at he'
        rcases ih _ e' he' with ⟨e₀, he₀, hq⟩ | ⟨en', hen', hq⟩
        · rcases mem_foldl_incEdge _ es e₀ he₀ with ⟨e₁, he₁, hq₁⟩ | ⟨pr, hpr, hq₁⟩
          · exact Or.inl ⟨e₁, he₁, hq.trans hq₁⟩
          · obtain ⟨hm1, hm2⟩ := mem_allPairs en.2 pr hpr
            refine Or.inr ⟨en, List.mem_cons_self en todo', ?_, ?_⟩
            · rw [hq, hq₁]; exact hm1
            · rw [hq, hq₁]; exact hm2
        · exact Or.inr ⟨en', List.mem_cons_of_mem en hen', hq⟩
  rcases haux (product_customers orders) [] e he with ⟨e₀, he₀, _⟩ | h
  · simp at he₀
  · exact h

/-- The distinct product ids occurring in any order line. -/
def distinctProducts (orders : List Order) : List Int :=
  ((purchases orders).map Prod.snd).dedup

instance (orders : List Order) (c p : Int) : Decidable (bought orders c p) := by
  unfold bought
  infer_instance

/-- The number of distinct products both `a` and `b` have purchased. -/
def commonCount (orders : List Order) (a b : Int) : Nat :=
  (distinctProducts orders).countP
    (fun p => decide (bought orders a p) && decide (bought orders b p))

theorem pairCount_eq_commonCount (orders : List Order) (a b : Int) :
    (product_customers orders).countP
        (fun e => decide (a ∈ e.2) && decide (b ∈ e.2)) =
      commonCount orders a b := by
  obtain ⟨hnd, hiff, hent⟩ := pcInv_product_customers orders
  have h1 : (product_customers orders).countP
      (fun e => decide (a ∈ e.2) && decide (b ∈ e.2)) =
      (product_customers orders).countP
        (fun e => decide (bought orders a e.1) && decide (bought orders b e.1)) := by
    apply List.countP_congr
    intro e he
    obtain ⟨_, hm⟩ := hent e he
    simp only [Bool.and_eq_true, decide_eq_true_eq]
    rw [hm a, hm b, mem_purchases, mem_purchases]
  have h2 : (product_customers orders).countP
      (fun e => decide (bought orders a e.1) && decide (bought orders b e.1)) =
      ((product_customers orders).map Prod.fst).countP
        (fun p => decide (bought orders a p) && decide (bought orders b p)) := by
    rw [List.countP_map]
    rfl
  have hperm : List.Perm ((product_customers orders).map Prod.fst)
      (distinctProducts orders) := by
    refine List.perm_of_nodup_nodup_toFinset_eq hnd (List.nodup_dedup _)
      (Finset.ext fun p => ?_)
    simp only [List.mem_toFinset, distinctProducts, List.mem_dedup]
    constructor
    · intro hp
      obtain ⟨pr, hpr, he⟩ := (hiff p).1 hp
      exact List.mem_map.2 ⟨pr, hpr, he⟩
    · intro hp
      obtain ⟨pr, hpr, he⟩ := List.mem_map.1 hp
      exact (hiff p).2 ⟨pr, hpr, he⟩
  rw [h1, h2, hperm.countP_eq]
  rfl

/-- C7: in the shared-purchase graph, a pair of distinct customers carries
an edge exactly when they share at least one distinct purchased product, the
weight being the number of distinct products both have purchased; the edge
lookup is orientation-independent; every customer passed in is a node; and
a customer who never purchased anything touches no edge. -/
theorem c7_product_graph (customers : List Customer) (orders : List Order)
    (a b : Int) (hab : a ≠ b) :
    (edgeLookup a b (build_customer_product_graph customers orders).edges =
      if commonCount orders a b = 0 then none
      else some (commonCount orders a b)) ∧
    (edgeLookup a b (build_customer_product_graph customers orders).edges =
      edgeLookup b a (build_customer_product_graph customers orders).edges) ∧
    (∀ c ∈ customers,
      (c.customer_id, c.name, c.city) ∈
        (build_customer_product_graph customers orders).nodes) ∧
    (∀ c : Int, (∀ p : Int, ¬ bought orders c p) →
      ∀ e ∈ (build_customer_product_graph customers orders).edges,
        e.1.1 ≠ c ∧ e.1.2 ≠ c) := by
  obtain ⟨hnd, hiff, hent⟩ := pcInv_product_customers orders
  refine ⟨?_, ?_, ?_, ?_⟩
  · show edgeLookup a b ((product_customers orders).foldl _ []) = _
    rw [edgeLookup_product_fold hab (product_customers orders) []
      (fun e he => (hent e he).1)]
    show optAdd none _ = _
    rw [optAdd_none, pairCount_eq_commonCount]
  · exact edgeLookup_swap a b _
  · intro c hc
    exact List.mem_map_of_mem _ hc
  · intro c hc e he
    obtain ⟨en, hen, hm1, hm2⟩ :=
      mem_graph_edges_endpoints customers orders e he
    obtain ⟨_, hmem⟩ := hent en hen
    constructor
    · intro he1
      rw [he1] at hm1
      exact hc en.1 (mem_purchases.1 ((hmem c).1 hm1))
    · intro he2
      rw [he2] at hm2
      exact hc en.1 (mem_purchases.1 ((hmem c).1 hm2))

/-- Demo data for the C7 witness: customers A and B both buy products P and
Q, nobody else buys anything, so the A–B edge has weight exactly 2. -/
def demoCustomerB : Customer :=
  ⟨2, "Bob", "bob@example.com", "+79991234568", "Main st. 2", "Moscow"⟩

def demoProductQ : Product := ⟨2, "Mouse", 20, "Tech", "A mouse", 10⟩

def demoOrdersAB : List Order :=
  [{ Order.create 1 demoCustomer ⟨2024, 5, 1, 12, 0⟩ with
      items := [⟨demoProduct, 1, 100⟩, ⟨demoProductQ, 1, 20⟩] },
   { Order.create 2 demoCustomerB ⟨2024, 5, 2, 12, 0⟩ with
      items := [⟨demoProduct, 1, 100⟩, ⟨demoProductQ, 2, 20⟩] }]

/-- Witness for C7 on the two-customer, two-shared-product scenario: the
common-product count evaluates to 2 and the A–B edge carries weight 2. -/
theorem c7_product_graph_witness :
    (1 : Int) ≠ 2 ∧
    commonCount demoOrdersAB 1 2 = 2 ∧
    edgeLookup 1 2
        (build_customer_product_graph [demoCustomer, demoCustomerB]
          demoOrdersAB).edges =
      if commonCount demoOrdersAB 1 2 = 0 then none
      else some (commonCount demoOrdersAB 1 2) := by
  refine ⟨by decide, by decide, ?_⟩
  exact (c7_product_graph [demoCustomer, demoCustomerB] demoOrdersAB 1 2
    (by decide)).1

/-- `city_customers[city].append(customer_id)` of
`build_customer_city_graph` (`defaultdict(list)` keyed by city). -/
def ccInsert (city : String) (cid : Int) :
    List (String × List Int) → List (String × List Int)
  | [] => [(city, [cid])]
  | e :: rest =>
      if e.1 = city then (e.1, e.2 ++ [cid]) :: rest
      else e :: ccInsert city cid rest

/-- The city → customers map of `build_customer_city_graph`: only customers
with a non-empty city are grouped. -/
def city_customers (customers : List Customer) : List (String × List Int) :=
  customers.foldl (fun m c =>
    if c.city ≠ "" then ccInsert c.city c.customer_id m else m) []

/-- `G.add_edge(c1, c2, city=city)`: set (or overwrite) the tag of the
unordered edge. -/
def setEdgeTag (x y : Int) (t : String) :
    List ((Int × Int) × String) → List ((Int × Int) × String)
  | [] => [((x, y), t)]
  | e :: rest =>
      if isPair x y e then (e.1, t) :: rest else e :: setEdgeTag x y t rest

/-- An undirected customer graph with city-tagged edges. -/
structure CityGraph where
  nodes : List (Int × String × String)
  edges : List ((Int × Int) × String)

/-- `NetworkAnalyzer.build_customer_city_graph`: nodes for the customers
with a non-empty city, and a city-tagged edge for every unordered pair
within the same city group. -/
def build_customer_city_graph (customers : List Customer) : CityGraph :=
  { nodes := (customers.filter fun c => decide (c.city ≠ "")).map
      (fun c => (c.customer_id, c.name, c.city))
    edges := (city_customers customers).foldl (fun es e =>
      (allPairs e.2).foldl (fun es' pr => setEdgeTag pr.1 pr.2 e.1 es') es) [] }

/-- Invariant of the city map over the processed customers: keys are the
distinct non-empty cities seen, and each entry lists exactly the ids of the
processed customers of that city, in order. -/
def CCInv (processed : List Customer) (m : List (String × List Int)) : Prop :=
  (m.map Prod.fst).Nodup ∧
  (∀ e ∈ m, e.1 ≠ "" ∧
    e.2 = (processed.filter fun c => decide (c.city = e.1)).map
      (fun c => c.customer_id)) ∧
  (∀ city : String, city ∈ m.map Prod.fst ↔
    city ≠ "" ∧ ∃ c ∈ processed, c.city = city)

theorem ccInsert_keys (city : String) (cid : Int) :
    ∀ m : List (String × List Int),
      (ccInsert city cid m).map Prod.fst =
        if city ∈ m.map Prod.fst then m.map Prod.fst
        else m.map Prod.fst ++ [city] := by
  intro m
  induction m with
  | nil => simp [ccInsert]
  | cons e rest ih =>
      unfold ccInsert
      by_cases he : e.1 = city
      · rw [if_pos he]
        simp [he]
      · rw [if_neg he]
        simp only [List.map_cons, List.mem_cons]
        by_cases hmem : city ∈ rest.map Prod.fst
        · rw [ih, if_pos hmem, if_pos (Or.inr hmem)]
        · rw [ih, if_neg hmem,
            if_neg (by
              rintro (h1 | h1)
              · exact he h1.symm
              · exact hmem h1)]
          simp

theorem ccInsert_mem (city : String) (cid : Int) :
    ∀ m : List (String × List Int), ((m.map Prod.fst).Nodup) →
      ∀ e' ∈ ccInsert city cid m,
        (e' ∈ m ∧ e'.1 ≠ city) ∨
        (∃ cs, (city, cs) ∈ m ∧ e' = (city, cs ++ [cid])) ∨
        ((city ∉ m.map Prod.fst) ∧ e' = (city, [cid])) := by
  intro m
  induction m with
  | nil =>
      intro _ e' he'
      simp only [ccInsert, List.mem_singleton] at he'
      exact Or.inr (Or.inr ⟨by simp, he'⟩)
  | cons e rest ih =>
      intro hnd e' he'
      unfold ccInsert at he'
      by_cases he : e.1 = city
      · rw [if_pos he] at he'
        rcases List.mem_cons.1 he' with h1 | h1
        · refine Or.inr (Or.inl ⟨e.2, ?_, ?_⟩)
          · rw [← he]
            exact List.mem_cons_self _ _
          · rw [h1, he]
        · refine Or.inl ⟨List.mem_cons_of_mem e h1, ?_⟩
          intro hp
          have hmem : e'.1 ∈ rest.map Prod.fst := List.mem_map_of_mem _ h1
          rw [hp, ← he] at hmem
          exact (List.nodup_cons.1 (by simpa using hnd)).1 hmem
      · rw [if_neg he] at he'
        rcases List.mem_cons.1 he' with h1 | h1
        · rw [h1]
          exact Or.inl ⟨List.mem_cons_self e rest, he⟩
        · rcases ih (List.nodup_cons.1 (by simpa using hnd)).2 e' h1 with
            ⟨h2, h3⟩ | ⟨cs, h2, h3⟩ | ⟨h2, h3⟩
          · exact Or.inl ⟨List.mem_cons_of_mem e h2, h3⟩
          · exact Or.inr (Or.inl ⟨cs, List.mem_cons_of_mem e h2, h3⟩)
          · refine Or.inr (Or.inr ⟨?_, h3⟩)
            simp only [List.map_cons, List.mem_cons]
            rintro (h4 | h4)
            · exact he h4.symm
            · exact h2 h4

theorem ccInv_step (processed : List Customer) (m : List (String × List Int))
    (c : Customer) (h : CCInv processed m) :
    CCInv (processed ++ [c])
      (if c.city ≠ "" then ccInsert c.city c.customer_id m else m) := by
  obtain ⟨hnd, hent, hiff⟩ := h
  by_cases hcity : c.city ≠ ""
  · rw [if_pos hcity]
    refine ⟨?_, ?_, ?_⟩
    · rw [ccInsert_keys]
      by_cases hmem : c.city ∈ m.map Prod.fst
      · rw [if_pos hmem]; exact hnd
      · rw [if_neg hmem, List.nodup_append]
        exact ⟨hnd, List.nodup_singleton _, by
          intro a ha hb
          rw [List.mem_singleton.1 hb] at ha
          exact hmem ha⟩
    · intro e' he'
      rcases ccInsert_mem c.city c.customer_id m hnd e' he' with
        ⟨hmem, hne⟩ | ⟨cs, hcs, he⟩ | ⟨hno, he⟩
      · obtain ⟨hne', hval⟩ := hent e' hmem
        refine ⟨hne', ?_⟩
        rw [List.filter_append, List.filter_cons_of_neg
          (by simp; intro hq; exact hne hq.symm)]
        simpa using hval
      · obtain ⟨hne', hval⟩ := hent (c.city, cs) hcs
        rw [he]
        refine ⟨hcity, ?_⟩
        simp only
        rw [List.filter_append, List.filter_cons_of_pos (by simp),
          List.map_append, ← hval]
        rfl
      · rw [he]
        refine ⟨hcity, ?_⟩
        simp only
        have hempty : (processed.filter fun x =>
            decide (x.city = c.city)) = [] := by
          rw [List.filter_eq_nil_iff]
          intro x hx
          simp only [decide_eq_true_eq]
          intro hxe
          exact hno ((hiff c.city).2 ⟨hcity, x, hx, hxe⟩)
        rw [List.filter_append, hempty, List.filter_cons_of_pos (by simp)]
        rfl
    · intro city
      rw [ccInsert_keys]
      by_cases hmem : c.city ∈ m.map Prod.fst
      · rw [if_pos hmem, hiff city]
        constructor
        · rintro ⟨h1, c', hc', h2⟩
          exact ⟨h1, c', List.mem_append.2 (Or.inl hc'), h2⟩
        · rintro ⟨h1, c', hc', h2⟩
          rcases List.mem_append.1 hc' with h3 | h3
          · exact ⟨h1, c', h3, h2⟩
          · rw [List.mem_singleton.1 h3] at h2
            rw [← h2]
            exact (hiff c.city).1 hmem
      · rw [if_neg hmem]
        constructor
        · intro hp
          rcases List.mem_append.1 hp with h1 | h1
          · obtain ⟨h2, c', hc', h3⟩ := (hiff city).1 h1
            exact ⟨h2, c', List.mem_append.2 (Or.inl hc'), h3⟩
          · rw [List.mem_singleton.1 h1]
            exact ⟨hcity, c, List.mem_append.2 (Or.inr (by simp)), rfl⟩
        · rintro ⟨h1, c', hc', h2⟩
          rcases List.mem_append.1 hc' with h3 | h3
          · exact List.mem_append.2 (Or.inl ((hiff city).2 ⟨h1, c', h3, h2⟩))
          · rw [List.mem_singleton.1 h3] at h2
            exact List.mem_append.2 (Or.inr (by simp [← h2]))
  · rw [if_neg hcity]
    have hcity' : c.city = "" := by simpa using hcity
    refine ⟨hnd, ?_, ?_⟩
    · intro e' he'
      obtain ⟨hne', hval⟩ := hent e' he'
      refine ⟨hne', ?_⟩
      rw [List.filter_append, List.filter_cons_of_neg
        (by simp [hcity']; exact fun hq => hne' hq.symm)]
      simpa using hval
    · intro city
      rw [hiff city]
      constructor
      · rintro ⟨h1, c', hc', h2⟩
        exact ⟨h1, c', List.mem_append.2 (Or.inl hc'), h2⟩
      · rintro ⟨h1, c', hc', h2⟩
        rcases List.mem_append.1 hc' with h3 | h3
        · exact ⟨h1, c', h3, h2⟩
        · rw [List.mem_singleton.1 h3] at h2
          rw [← h2, hcity'] at h1
          exact absurd rfl h1

theorem ccInv_city_customers (customers : List Customer) :
    CCInv customers (city_customers customers) := by
  unfold city_customers
  have haux : ∀ cs : List Customer,
      CCInv cs (cs.foldl (fun m c =>
        if c.city ≠ "" then ccInsert c.city c.customer_id m else m) []) := by
    intro cs
    induction cs using List.reverseRecOn with
    | nil =>
        refine ⟨by simp, by simp, ?_⟩
        intro city
        simp
    | append_singleton cs c ih =>
        rw [List.foldl_append]
        simpa using ccInv_step cs _ c ih
  exact haux customers

theorem edgeLookup_setEdgeTag {a b x y : Int} {t : String} :
    ∀ es : List ((Int × Int) × String),
      edgeLookup a b (setEdgeTag x y t es) =
        if samePair a b x y then some t else edgeLookup a b es := by
  intro es
  induction es with
  | nil =>
      by_cases h : samePair a b x y = true
      · have hip : isPair a b (((x, y), t) : (Int × Int) × String) = true := h
        simp [setEdgeTag, edgeLookup, h, hip]
      · have h' : samePair a b x y = false := bool_eq_false h
        have hip : isPair a b (((x, y), t) : (Int × Int) × String) = false := h'
        simp [setEdgeTag, edgeLookup, h', hip]
  | cons e rest ih =>
      by_cases hp : isPair x y e = true
      · by_cases hq : isPair a b e = true
        · have hsp : samePair a b x y = true := by
            apply samePair_true_iff.2
            rcases samePair_true_iff.1 hp with h12 | h12 <;>
              rcases samePair_true_iff.1 hq with h34 | h34
            · exact Or.inl ⟨h12.1.symm.trans h34.1, h12.2.symm.trans h34.2⟩
            · exact Or.inr ⟨h12.1.symm.trans h34.1, h12.2.symm.trans h34.2⟩
            · exact Or.inr ⟨h12.2.symm.trans h34.2, h12.1.symm.trans h34.1⟩
            · exact Or.inl ⟨h12.2.symm.trans h34.2, h12.1.symm.trans h34.1⟩
          have hpe : isPair a b (e.1, t) = true := hq
          simp [setEdgeTag, hp, edgeLookup, hpe, hq, hsp]
        · have hq' : isPair a b e = false := bool_eq_false hq
          have hsp : samePair a b x y = false := by
            cases ht : samePair a b x y
            · rfl
            · exfalso
              apply hq
              rw [isPair_congr ht e]
              exact hp
          have hpe : isPair a b (e.1, t) = false := hq'
          simp [setEdgeTag, hp, edgeLookup, hpe, hq', hsp]
      · have hp' : isPair x y e = false := bool_eq_false hp
        by_cases hq : isPair a b e = true
        · have hsp : samePair a b x y = false := by
            cases ht : samePair a b x y
            · rfl
            · exfalso
              apply hp
              rw [← isPair_congr ht e]
              exact hq
          simp [setEdgeTag, hp', edgeLookup, hq, hsp]
        · have hq' : isPair a b e = false := bool_eq_false hq
          simp [setEdgeTag, hp', edgeLookup, hq', ih]

theorem edgeLookup_foldl_setEdgeTag {a b : Int} {t : String} :
    ∀ (qs : List (Int × Int)) (es : List ((Int × Int) × String)),
      edgeLookup a b (qs.foldl (fun es' pr => setEdgeTag pr.1 pr.2 t es') es) =
        if ∃ pr ∈ qs, samePair a b pr.1 pr.2 = true then some t
        else edgeLookup a b es := by
  intro qs
  induction qs with
  | nil =>
      intro es
      rw [List.foldl_nil, if_neg (by simp)]
  | cons pr qs' ih =>
      intro es
      rw [List.foldl_cons, ih, edgeLookup_setEdgeTag]
      by_cases h1 : ∃ pr' ∈ qs', samePair a b pr'.1 pr'.2 = true
      · rw [if_pos h1, if_pos (by
          obtain ⟨pr', hpr', hsp⟩ := h1
          exact ⟨pr', List.mem_cons_of_mem pr hpr', hsp⟩)]
      · rw [if_neg h1]
        by_cases h2 : samePair a b pr.1 pr.2 = true
        · rw [if_pos h2, if_pos ⟨pr, List.mem_cons_self pr qs', h2⟩]
        · rw [if_neg h2, if_neg (by
            rintro ⟨pr', hpr', hsp⟩
            rcases List.mem_cons.1 hpr' with h3 | h3
            · rw [h3] at hsp
              exact h2 hsp
            · exact h1 ⟨pr', h3, hsp⟩)]

theorem exists_samePair_allPairs {a b : Int} (hab : a ≠ b)
    (cs : List Int) (hnd : cs.Nodup) :
    (∃ pr ∈ allPairs cs, samePair a b pr.1 pr.2 = true) ↔
      a ∈ cs ∧ b ∈ cs := by
  constructor
  · rintro ⟨pr, hpr, hsp⟩
    obtain ⟨h1, h2⟩ := mem_allPairs cs pr hpr
    rcases samePair_true_iff.1 hsp with ⟨h3, h4⟩ | ⟨h3, h4⟩
    · exact ⟨h3 ▸ h1, h4 ▸ h2⟩
    · exact ⟨h4 ▸ h2, h3 ▸ h1⟩
  · intro hin
    apply List.countP_pos.1
    rw [countP_allPairs hab cs hnd, if_pos hin]
    omega

theorem edgeLookup_city_fold_none {a b : Int} :
    ∀ (todo : List (String × List Int)) (es : List ((Int × Int) × String)),
      (∀ e ∈ todo, ¬ ∃ pr ∈ allPairs e.2, samePair a b pr.1 pr.2 = true) →
      edgeLookup a b (todo.foldl (fun es' e =>
          (allPairs e.2).foldl (fun es'' pr =>
            setEdgeTag pr.1 pr.2 e.1 es'') es') es) =
        edgeLookup a b es := by
  intro todo
  induction todo with
  | nil => intro es _; rfl
  | cons e todo' ih =>
      intro es hno
      rw [List.foldl_cons,
        ih _ (fun x hx => hno x (List.mem_cons_of_mem e hx)),
        edgeLookup_foldl_setEdgeTag,
        if_neg (hno e (List.mem_cons_self e todo'))]

theorem edgeLookup_city_fold_some {a b : Int} {t : String} :
    ∀ (todo : List (String × List Int)) (es : List ((Int × Int) × String)),
      (∃ e ∈ todo, e.1 = t ∧ ∃ pr ∈ allPairs e.2, samePair a b pr.1 pr.2 = true) →
      (∀ e ∈ todo, ∀ e' ∈ todo,
        (∃ pr ∈ allPairs e.2, samePair a b pr.1 pr.2 = true) →
        (∃ pr ∈ allPairs e'.2, samePair a b pr.1 pr.2 = true) → e.1 = e'.1) →
      edgeLookup a b (todo.foldl (fun es' e =>
          (allPairs e.2).foldl (fun es'' pr =>
            setEdgeTag pr.1 pr.2 e.1 es'') es') es) =
        some t := by
  intro todo
  induction todo with
  | nil =>
      rintro es ⟨e, he, _⟩ _
      simp at he
  | cons e todo' ih =>
      rintro es ⟨ew, hew, hewt, hewp⟩ huniq
      rw [List.foldl_cons]
      by_cases hq : ∃ e' ∈ todo', ∃ pr ∈ allPairs e'.2, samePair a b pr.1 pr.2 = true
      · obtain ⟨e', he', hp'⟩ := hq
        have ht' : e'.1 = t := by
          rw [huniq e' (List.mem_cons_of_mem e he') ew hew hp' hewp, hewt]
        exact ih _ ⟨e', he', ht', hp'⟩
          (fun x hx y hy hpx hpy =>
            huniq x (List.mem_cons_of_mem e hx) y (List.mem_cons_of_mem e hy)
              hpx hpy)
      · have hewe : ew = e := by
          rcases List.mem_cons.1 hew with h1 | h1
          · exact h1
          · exact absurd ⟨ew, h1, hewp⟩ hq
        rw [edgeLookup_city_fold_none todo' _
          (fun x hx hpx => hq ⟨x, hx, hpx⟩),
          edgeLookup_foldl_setEdgeTag,
          if_pos (hewe ▸ hewp), ← hewt, hewe]

theorem mem_setEdgeTag {x y : Int} {t : String} :
    ∀ (es : List ((Int × Int) × String)), ∀ e' ∈ setEdgeTag x y t es,
      (∃ e₀ ∈ es, e'.1 = e₀.1) ∨ e'.1 = (x, y) := by
  intro es
  induction es with
  | nil =>
      intro e' he'
      have he : e' = ((x, y), t) := by simpa [setEdgeTag] using he'
      rw [he]
      exact Or.inr rfl
  | cons e rest ih =>
      intro e' he'
      unfold setEdgeTag at he'
      by_cases hp : isPair x y e = true
      · rw [if_pos hp] at he'
        rcases List.mem_cons.1 he' with h1 | h1
        · exact Or.inl ⟨e, List.mem_cons_self e rest, by rw [h1]⟩
        · exact Or.inl ⟨e', List.mem_cons_of_mem e h1, rfl⟩
      · rw [if_neg hp] at he'
        rcases List.mem_cons.1 he' with h1 | h1
        · exact Or.inl ⟨e, List.mem_cons_self e rest, by rw [h1]⟩
        · rcases ih e' h1 with ⟨e₀, he₀, hq⟩ | hq
          · exact Or.inl ⟨e₀, List.mem_cons_of_mem e he₀, hq⟩
          · exact Or.inr hq

theorem mem_foldl_setEdgeTag {t : String} :
    ∀ (qs : List (Int × Int)) (es : List ((Int × Int) × String)),
      ∀ e' ∈ qs.foldl (fun es' pr => setEdgeTag pr.1 pr.2 t es') es,
        (∃ e₀ ∈ es, e'.1 = e₀.1) ∨ ∃ pr ∈ qs, e'.1 = pr := by
  intro qs
  induction qs with
  | nil =>
      intro es e' he'
      exact Or.inl ⟨e', he', rfl⟩
  | cons pr qs' ih =>
      intro es e' he'
      rw [List.foldl_cons] at he'
      rcases ih _ e' he' with ⟨e₀, he₀, hq⟩ | ⟨pr', hpr', hq⟩
      · rcases mem_setEdgeTag es e₀ he₀ with ⟨e₁, he₁, hq₁⟩ | hq₁
        · exact Or.inl ⟨e₁, he₁, hq.trans hq₁⟩
        · exact Or.inr ⟨pr, List.mem_cons_self pr qs', by
            rw [hq, hq₁]⟩
      · exact Or.inr ⟨pr', List.mem_cons_of_mem pr hpr', hq⟩

theorem mem_city_edges_endpoints (customers : List Customer) :
    ∀ e ∈ (build_customer_city_graph customers).edges,
      ∃ en ∈ city_customers customers, e.1.1 ∈ en.2 ∧ e.1.2 ∈ en.2 := by
  intro e he
  unfold build_customer_city_graph at he
  simp only at he
  have haux : ∀ (todo : List (String × List Int))
      (es : List ((Int × Int) × String)),
      ∀ e' ∈ todo.foldl (fun es' en =>
        (allPairs en.2).foldl (fun es'' pr =>
          setEdgeTag pr.1 pr.2 en.1 es'') es') es,
        (∃ e₀ ∈ es, e'.1 = e₀.1) ∨
          ∃ en ∈ todo, e'.1.1 ∈ en.2 ∧ e'.1.2 ∈ en.2 := by
    intro todo
    induction todo with
    | nil => intro es e' he'; exact Or.inl ⟨e', he', rfl⟩
    | cons en todo' ih =>
        intro es e' he'
        rw [List.foldl_cons] at he'
        rcases ih _ e' he' with ⟨e₀, he₀, hq⟩ | ⟨en', hen', hq⟩
        · rcases mem_foldl_setEdgeTag _ es e₀ he₀ with
            ⟨e₁, he₁, hq₁⟩ | ⟨pr, hpr, hq₁⟩
          · exact Or.inl ⟨e₁, he₁, hq.trans hq₁⟩
          · obtain ⟨hm1, hm2⟩ := mem_allPairs en.2 pr hpr
            refine Or.inr ⟨en, List.mem_cons_self en todo', ?_, ?_⟩
            · rw [hq, hq₁]; exact hm1
            · rw [hq, hq₁]; exact hm2
        · exact Or.inr ⟨en', List.mem_cons_of_mem en hen', hq⟩
  rcases haux (city_customers customers) [] e he with ⟨e₀, he₀, _⟩ | h
  · simp at he₀
  · exact h

/-- C8: in `build_customer_city_graph`, assuming distinct customer ids, two
distinct ids `a`, `b` are joined by an edge tagged `t` exactly when they
belong to customers sharing the same non-empty city `t` (so each non-empty
city group forms a complete subgraph tagged by its city); every customer
with a non-empty city is a node; and a customer with an empty city is
neither a node nor an endpoint of any edge. -/
theorem c8_city_graph (customers : List Customer)
    (hnd : (customers.map (fun c => c.customer_id)).Nodup) :
    (∀ (a b : Int) (t : String), a ≠ b →
      (edgeLookup a b (build_customer_city_graph customers).edges = some t ↔
        ∃ ca ∈ customers, ∃ cb ∈ customers,
          ca.customer_id = a ∧ cb.customer_id = b ∧
          ca.city = t ∧ cb.city = t ∧ t ≠ "")) ∧
    (∀ c ∈ customers, c.city ≠ "" →
      (c.customer_id, c.name, c.city) ∈
        (build_customer_city_graph customers).nodes) ∧
    (∀ c ∈ customers, c.city = "" →
      (∀ nd ∈ (build_customer_city_graph customers).nodes,
        nd.1 ≠ c.customer_id) ∧
      (∀ e ∈ (build_customer_city_graph customers).edges,
        e.1.1 ≠ c.customer_id ∧ e.1.2 ≠ c.customer_id)) := by
  obtain ⟨hkeys, hent, hiff⟩ := ccInv_city_customers customers
  have hinj : ∀ c₁ ∈ customers, ∀ c₂ ∈ customers,
      c₁.customer_id = c₂.customer_id → c₁ = c₂ := by
    intro c₁ h₁ c₂ h₂ he
    exact List.inj_on_of_nodup_map hnd h₁ h₂ he
  have hmem_entry : ∀ e ∈ city_customers customers, ∀ x ∈ e.2,
      ∃ c ∈ customers, c.customer_id = x ∧ c.city = e.1 := by
    intro e he x hx
    rw [(hent e he).2] at hx
    obtain ⟨c, hc, hcx⟩ := List.mem_map.1 hx
    obtain ⟨hc1, hc2⟩ := List.mem_filter.1 hc
    exact ⟨c, hc1, hcx, by simpa using hc2⟩
  have hnodup_entry : ∀ e ∈ city_customers customers, e.2.Nodup := by
    intro e he
    rw [(hent e he).2]
    exact List.Nodup.sublist
      (List.Sublist.map _ (List.filter_sublist customers)) hnd
  have huniq : ∀ e ∈ city_customers customers,
      ∀ e' ∈ city_customers customers, ∀ x : Int,
      x ∈ e.2 → x ∈ e'.2 → e.1 = e'.1 := by
    intro e he e' he' x hx hx'
    obtain ⟨c₁, hc₁, hid₁, hcity₁⟩ := hmem_entry e he x hx
    obtain ⟨c₂, hc₂, hid₂, hcity₂⟩ := hmem_entry e' he' x hx'
    rw [← hcity₁, ← hcity₂, hinj c₁ hc₁ c₂ hc₂ (hid₁.trans hid₂.symm)]
  have hedges : (build_customer_city_graph customers).edges =
      (city_customers customers).foldl (fun es e =>
        (allPairs e.2).foldl (fun es' pr =>
          setEdgeTag pr.1 pr.2 e.1 es') es) [] := rfl
  refine ⟨?_, ?_, ?_⟩
  · intro a b t hab
    have hbridge : ∀ e ∈ city_customers customers,
        ((∃ pr ∈ allPairs e.2, samePair a b pr.1 pr.2 = true) ↔
          a ∈ e.2 ∧ b ∈ e.2) := fun e he =>
      exists_samePair_allPairs hab e.2 (hnodup_entry e he)
    have huniqP : ∀ e ∈ city_customers customers,
        ∀ e' ∈ city_customers customers,
        (∃ pr ∈ allPairs e.2, samePair a b pr.1 pr.2 = true) →
        (∃ pr ∈ allPairs e'.2, samePair a b pr.1 pr.2 = true) →
        e.1 = e'.1 := by
      intro e he e' he' hp hp'
      exact huniq e he e' he' a ((hbridge e he).1 hp).1
        ((hbridge e' he').1 hp').1
    constructor
    · intro h
      rw [hedges] at h
      by_cases hex : ∃ e ∈ city_customers customers, a ∈ e.2 ∧ b ∈ e.2
      · obtain ⟨e, he, hae, hbe⟩ := hex
        have hsome := edgeLookup_city_fold_some (t := e.1)
          (city_customers customers) []
          ⟨e, he, rfl, (hbridge e he).2 ⟨hae, hbe⟩⟩ huniqP
        have htee : t = e.1 := (Option.some.inj (hsome.symm.trans h)).symm
        obtain ⟨ca, hca, hida, hcitya⟩ := hmem_entry e he a hae
        obtain ⟨cb, hcb, hidb, hcityb⟩ := hmem_entry e he b hbe
        exact ⟨ca, hca, cb, hcb, hida, hidb,
          by rw [hcitya, htee], by rw [hcityb, htee],
          by rw [htee]; exact (hent e he).1⟩
      · have hnone := edgeLookup_city_fold_none (city_customers customers) []
          (fun e he hp => hex ⟨e, he, (hbridge e he).1 hp⟩)
        rw [hnone] at h
        simp [edgeLookup] at h
    · rintro ⟨ca, hca, cb, hcb, hida, hidb, hcat, hcbt, hne⟩
      have hkey : t ∈ (city_customers customers).map Prod.fst :=
        (hiff t).2 ⟨hne, ca, hca, hcat⟩
      obtain ⟨e, he, het⟩ := List.mem_map.1 hkey
      have hae : a ∈ e.2 := by
        rw [(hent e he).2]
        exact List.mem_map.2
          ⟨ca, List.mem_filter.2 ⟨hca, by simp [hcat, het]⟩, hida⟩
      have hbe : b ∈ e.2 := by
        rw [(hent e he).2]
        exact List.mem_map.2
          ⟨cb, List.mem_filter.2 ⟨hcb, by simp [hcbt, het]⟩, hidb⟩
      have hsome := edgeLookup_city_fold_some (t := t)
        (city_customers customers) []
        ⟨e, he, het, (hbridge e he).2 ⟨hae, hbe⟩⟩ huniqP
      rw [hedges]
      exact hsome
  · intro c hc hne
    unfold build_customer_city_graph
    simp only
    exact List.mem_map.2 ⟨c, List.mem_filter.2 ⟨hc, by simpa using hne⟩, rfl⟩
  · intro c hc hcity
    constructor
    · intro nd hnd'
      unfold build_customer_city_graph at hnd'
      simp only at hnd'
      obtain ⟨c', hc', hcnd⟩ := List.mem_map.1 hnd'
      obtain ⟨hc'1, hc'2⟩ := List.mem_filter.1 hc'
      intro heq
      rw [← hcnd] at heq
      have hid : c'.customer_id = c.customer_id := by simpa using heq
      rw [hinj c' hc'1 c hc hid, hcity] at hc'2
      simp at hc'2
    · intro e he
      obtain ⟨en, hen, h1, h2⟩ := mem_city_edges_endpoints customers e he
      constructor
      · intro heq
        obtain ⟨c₁, hc₁, hid₁, hcity₁⟩ := hmem_entry en hen e.1.1 h1
        rw [heq] at hid₁
        rw [hinj c₁ hc₁ c hc hid₁, hcity] at hcity₁
        exact (hent en hen).1 hcity₁.symm
      · intro heq
        obtain ⟨c₁, hc₁, hid₁, hcity₁⟩ := hmem_entry en hen e.1.2 h2
        rw [heq] at hid₁
        rw [hinj c₁ hc₁ c hc hid₁, hcity] at hcity₁
        exact (hent en hen).1 hcity₁.symm

/-- Three Moscow customers and one customer with an empty city. -/
def demoCityCustomers : List Customer :=
  [⟨1, "Alice", "alice@example.com", "+79991234567", "Main st. 1", "Moscow"⟩,
   ⟨2, "Bob", "bob@example.com", "+79991234568", "Main st. 2", "Moscow"⟩,
   ⟨3, "Carol", "carol@example.com", "+79991234569", "Main st. 3", "Moscow"⟩,
   ⟨4, "Dave", "dave@example.com", "+79991234570", "Main st. 4", ""⟩]

/-- Witness for C8: on three Moscow customers (ids 1, 2, 3) plus one
customer with an empty city, the ids are distinct, the edge between 1 and 2
is tagged "Moscow", and the graph has exactly 3 edges (the complete graph
on the Moscow trio; the empty-city customer contributes nothing). -/
theorem c8_city_graph_witness :
    (demoCityCustomers.map (fun c => c.customer_id)).Nodup ∧
    edgeLookup 1 2 (build_customer_city_graph demoCityCustomers).edges =
      some "Moscow" ∧
    (build_customer_city_graph demoCityCustomers).edges.length = 3 := by
  refine ⟨by decide, ?_, by rfl⟩
  apply ((c8_city_graph demoCityCustomers (by decide)).1 1 2 "Moscow"
    (by decide)).2
  exact ⟨⟨1, "Alice", "alice@example.com", "+79991234567", "Main st. 1",
      "Moscow"⟩, by decide,
    ⟨2, "Bob", "bob@example.com", "+79991234568", "Main st. 2", "Moscow"⟩,
      by decide, rfl, rfl, rfl, rfl, by decide⟩

/-- Witness for C6: the empty order collection takes the `KeyError` branch,
while the two concrete orders over the demo products produce exactly the two
expected rows — Laptop before Mouse, revenue 200 over 60 — with distinct
product ids and descending revenue, both extracted by the theorem. -/
theorem c6_product_sales_stats_witness :
    get_product_sales_stats ([] : List Order) = .error "KeyError: 'revenue'" ∧
    get_product_sales_stats demoOrdersAB =
      .ok [⟨1, "Laptop", "Tech", 2, 200, 2⟩, ⟨2, "Mouse", "Tech", 3, 60, 2⟩] ∧
    (([⟨1, "Laptop", "Tech", 2, 200, 2⟩, ⟨2, "Mouse", "Tech", 3, 60, 2⟩] :
        List ProductStatsRow).map fun r => r.product_id).Nodup ∧
    ([⟨1, "Laptop", "Tech", 2, 200, 2⟩, ⟨2, "Mouse", "Tech", 3, 60, 2⟩] :
        List ProductStatsRow).Pairwise (fun a b => b.revenue ≤ a.revenue) := by
  have hb : (demoOrdersAB.bind fun o => o.items) =
      [⟨demoProduct, 1, 100⟩, ⟨demoProductQ, 1, 20⟩,
       ⟨demoProduct, 1, 100⟩, ⟨demoProductQ, 2, 20⟩] := by rfl
  have hf : List.foldl updateStats []
      [⟨demoProduct, 1, 100⟩, ⟨demoProductQ, 1, 20⟩,
       ⟨demoProduct, 1, 100⟩, ⟨demoProductQ, 2, 20⟩] =
      [⟨1, "Laptop", "Tech", 2, 200, 2⟩, ⟨2, "Mouse", "Tech", 3, 60, 2⟩] := by
    norm_num [updateStats, OrderItem.get_total, demoProduct, demoProductQ]
  have hs : stableSortByKey
      (fun r : ProductStatsRow => OrderDual.toDual r.revenue)
      [⟨1, "Laptop", "Tech", 2, 200, 2⟩, ⟨2, "Mouse", "Tech", 3, 60, 2⟩] =
      [⟨1, "Laptop", "Tech", 2, 200, 2⟩, ⟨2, "Mouse", "Tech", 3, 60, 2⟩] := by
    norm_num [stableSortByKey, insertByKey]
    show (60 : ℚ) ≤ 200
    norm_num
  have hok : get_product_sales_stats demoOrdersAB =
      .ok [⟨1, "Laptop", "Tech", 2, 200, 2⟩,
        ⟨2, "Mouse", "Tech", 3, 60, 2⟩] := by
    unfold get_product_sales_stats
    rw [hb, hf, if_neg (by simp), hs]
  refine ⟨c6_product_sales_stats.1 [] rfl, hok, ?_, ?_⟩
  · exact (c6_product_sales_stats.2 demoOrdersAB _ hok).1
  · exact (c6_product_sales_stats.2 demoOrdersAB _ hok).2.2.2

end Shop
